import Mathlib

/-!
# Gallery script: favourites store, record normalisation and filter pipeline

A shallow embedding of `gallery_script.js`.

* JavaScript strings are lists of characters (`Str`).  `toLowerCase`,
  `toUpperCase` follow the host functions on the ASCII range; characters outside
  ASCII are left unchanged.
* `String.prototype.length` counts UTF-16 code units (`utf16Length`); `List.length`
  is used where the strings measured are ASCII or only emptiness matters.
* JavaScript `Set`s are lists in insertion order; `Set.has` is list membership
  and `size > 0` is non-emptiness.
* The fuzzy engine (`fuseInstance.search`) is a function from the query to the
  ranked list of records it returns.
* The DOM is not modelled: a state holds `currentItems` and `displayedCount`.
-/

set_option autoImplicit false

namespace Gallery

/-! ## Strings -/

/-- JavaScript strings, as lists of characters. -/
abbrev Str := List Char

/-- `String.prototype.toLowerCase` (ASCII range). -/
def toLowerCase (s : Str) : Str := s.map Char.toLower

/-- `String.prototype.toUpperCase` (ASCII range). -/
def toUpperCase (s : Str) : Str := s.map Char.toUpper

/-- `String.prototype.includes`: `pat` occurs in `s` as a contiguous run. -/
def includes : Str → Str → Bool
  | [], pat => pat.isEmpty
  | c :: cs, pat => pat.isPrefixOf (c :: cs) || includes cs pat

/-- `String.prototype.split` with a one-character separator. -/
def splitChar (sep : Char) : Str → List Str
  | [] => [[]]
  | c :: cs =>
    if c = sep then [] :: splitChar sep cs
    else
      match splitChar sep cs with
      | [] => [[c]]
      | w :: ws => (c :: w) :: ws

/-- Worker of `splitStr`: `skip` characters of a matched separator are still to
be consumed, `cur` is the current piece, reversed. -/
def splitStrAux (sep : Str) : Nat → Str → Str → List Str
  | _, cur, [] => [cur.reverse]
  | skip + 1, cur, _ :: cs => splitStrAux sep skip cur cs
  | 0, cur, c :: cs =>
    if sep.isPrefixOf (c :: cs) then cur.reverse :: splitStrAux sep (sep.length - 1) [] cs
    else splitStrAux sep 0 (c :: cur) cs

/-- `String.prototype.split` with a non-empty string separator: the separator
is searched left to right, occurrences do not overlap. -/
def splitStr (sep : Str) (s : Str) : List Str := splitStrAux sep 0 [] s

/-- `String.prototype.replace` with a string pattern: only the first
occurrence is replaced. -/
def replaceFirst (pat repl : Str) : Str → Str
  | [] => if pat.isEmpty then repl else []
  | c :: cs =>
    if pat.isPrefixOf (c :: cs) then repl ++ (c :: cs).drop pat.length
    else c :: replaceFirst pat repl cs

/-- `Array.prototype.join`. -/
def join (sep : Str) : List Str → Str
  | [] => []
  | [w] => w
  | w :: w' :: ws => w ++ sep ++ join sep (w' :: ws)

/-- White space and line terminators, as stripped by `String.prototype.trim`. -/
def isJsSpace (c : Char) : Bool :=
  let n := c.toNat
  (9 ≤ n && n ≤ 13) || n = 32 || n = 160 || n = 5760 || (8192 ≤ n && n ≤ 8202) ||
    n = 8232 || n = 8233 || n = 8239 || n = 8287 || n = 12288 || n = 65279

/-- `String.prototype.trim`. -/
def trim (s : Str) : Str :=
  ((s.dropWhile isJsSpace).reverse.dropWhile isJsSpace).reverse

/-- The regular-expression class `\w`. -/
def isWordChar (c : Char) : Bool :=
  let n := c.toNat
  (48 ≤ n && n ≤ 57) || (65 ≤ n && n ≤ 90) || (97 ≤ n && n ≤ 122) || n = 95

/-- Worker of `splitNonWord`; `inSep` says that the previous character belonged
to a separator run. -/
def splitNonWordAux : Bool → Str → List Str
  | _, [] => [[]]
  | inSep, c :: cs =>
    if isWordChar c then
      match splitNonWordAux false cs with
      | [] => [[c]]
      | w :: ws => (c :: w) :: ws
    else if inSep then splitNonWordAux true cs
    else [] :: splitNonWordAux true cs

/-- `text.split(/\W+/)`. -/
def splitNonWord (s : Str) : List Str := splitNonWordAux false s

/-- `[...new Set(xs)]`: the distinct elements in order of first occurrence. -/
def uniqueInOrder : List Str → List Str
  | [] => []
  | x :: xs => x :: (uniqueInOrder xs).filter (fun y => y != x)

/-- `String.prototype.length`: the number of UTF-16 code units; a character
beyond the basic plane takes two. -/
def utf16Length (s : Str) : Nat :=
  (s.map fun c => if c.toNat < 65536 then 1 else 2).sum

/-- The ASCII capital letters. -/
def isAsciiUpper (c : Char) : Bool :=
  decide (65 ≤ c.toNat) && decide (c.toNat ≤ 90)

/-- A small ASCII letter, a digit or the underscore. -/
def isLowerWordChar (c : Char) : Bool :=
  let n := c.toNat
  (97 ≤ n && n ≤ 122) || (48 ≤ n && n ≤ 57) || n = 95

/-! ## CrushManager -/

/-- The favourites store; `crushes` is the array that `save()` serialises. -/
structure CrushManager where
  crushes : List Str
deriving DecidableEq

/-- `Array.prototype.indexOf`: position of the first occurrence, `-1` if none. -/
def indexOf : List Str → Str → Int
  | [], _ => -1
  | x :: xs, a =>
    if x = a then 0
    else
      let i := indexOf xs a
      if i > -1 then i + 1 else -1

/-- `this.crushes.includes(filename)`. -/
def CrushManager.isCrushed (m : CrushManager) (filename : Str) : Bool :=
  m.crushes.contains filename

/-- `toggle(filename)`: the store afterwards and the returned boolean. -/
def CrushManager.toggle (m : CrushManager) (filename : Str) : CrushManager × Bool :=
  let index := indexOf m.crushes filename
  let m' : CrushManager :=
    if index > -1 then { crushes := m.crushes.eraseIdx index.toNat }
    else { crushes := m.crushes ++ [filename] }
  (m', m'.isCrushed filename)

/-- `getAll()`: a copy of the array. -/
def CrushManager.getAll (m : CrushManager) : List Str := m.crushes

/-! ### The store as `load()` leaves it -/

/-- Values that `JSON.parse` can return. -/
inductive JsVal where
  | null
  | bool (b : Bool)
  | num (n : Int)
  | str (s : Str)
  | arr (xs : List JsVal)
  | obj (kvs : List (Str × JsVal))

/-- Strict equality of a value with a string, as `indexOf` and `includes` use it. -/
def JsVal.isStr (filename : Str) : JsVal → Bool
  | .str s => s == filename
  | _ => false

/-- `load()`: `getItem` is the outcome of `localStorage.getItem` (an exception,
`null`, or the stored text), `jsonParse` is `JSON.parse` (an exception on
unparseable text). -/
def CrushManager.load (getItem : Except Unit (Option Str))
    (jsonParse : Str → Except Unit JsVal) : JsVal :=
  match getItem with
  | .error _ => .arr []
  | .ok none => .arr []
  | .ok (some data) =>
    if data.isEmpty then .arr []
    else
      match jsonParse data with
      | .ok v => v
      | .error _ => .arr []

/-- `isCrushed` on whatever `load()` returned; `.error` is a `TypeError`. -/
def isCrushedRaw (crushes : JsVal) (filename : Str) : Except Unit Bool :=
  match crushes with
  | .arr xs => .ok (xs.any (JsVal.isStr filename))
  | .str s => .ok (includes s filename)
  | _ => .error ()

/-- `getAll` on whatever `load()` returned: spreading needs an iterable. -/
def getAllRaw (crushes : JsVal) : Except Unit (List JsVal) :=
  match crushes with
  | .arr xs => .ok xs
  | .str s => .ok (s.map fun c => JsVal.str [c])
  | _ => .error ()

/-- `toggle` on whatever `load()` returned: only arrays have `splice` and
`push`, only arrays and strings have `indexOf`. -/
def toggleRaw (crushes : JsVal) (filename : Str) : Except Unit (JsVal × Bool) :=
  match crushes with
  | .arr xs =>
    let xs' :=
      match xs.findIdx? (JsVal.isStr filename) with
      | some index => xs.eraseIdx index
      | none => xs ++ [JsVal.str filename]
    .ok (.arr xs', xs'.any (JsVal.isStr filename))
  | _ => .error ()

/-! ## Record normaliser -/

/-- The object returned by `parseFilename`. -/
structure Metadata where
  persona : Str
  hook : Str
  style : Str
  timestamp : Str
  index : Str
deriving DecidableEq

/-- `parts[i] || dflt`: a missing or empty segment yields the default. -/
def orDefault (part : Option Str) (dflt : Str) : Str :=
  match part with
  | some (c :: cs) => c :: cs
  | _ => dflt

/-- `parseFilename`. -/
def parseFilename (filename : Str) : Metadata :=
  let base := replaceFirst ".png".data [] filename
  let parts := splitStr "__".data base
  { persona := orDefault (parts.get? 0) "Unknown".data
    hook := orDefault (parts.get? 1) "Unknown".data
    style := orDefault (parts.get? 2) "Unknown".data
    timestamp := orDefault (parts.get? 3) []
    index := orDefault (parts.get? 4) [] }

/-- `word.charAt(0).toUpperCase() + word.slice(1)`. -/
def capitalize (word : Str) : Str := toUpperCase (word.take 1) ++ word.drop 1

/-- `formatText`. -/
def formatText (text : Str) : Str :=
  join " ".data ((splitChar '-' text).map capitalize)

/-- The stop-word set of `extractKeywords`. -/
def stopWords : List Str :=
  ["the", "a", "an", "and", "or", "but", "with", "from", "to", "for", "of", "in", "on",
    "at"].map String.data

/-- `extractKeywords`. -/
def extractKeywords (text : Str) : List Str :=
  ((splitNonWord (toLowerCase text)).filter
    (fun w => decide (w.length > 3) && !stopWords.contains w)).take 15

/-- The shapes `item.tags` is distinguished by: a string, an array, or anything
else (missing, `null`, another type). -/
inductive RawTags where
  | absent
  | csv (s : Str)
  | array (xs : List Str)
deriving DecidableEq

/-- One entry of `window.GALLERY_DATA`; the `job` payload is not modelled. -/
structure RawEntry where
  filename : Str
  thumbnail : Option Str
  fbCopy : Option Str
  tags : RawTags
  prompt : Option Str
deriving DecidableEq

/-- A normalised record.  The `job` payload and the derived `searchText` are
read by the fuzzy engine only and are not modelled. -/
structure Item where
  filename : Str
  thumbnail : Str
  persona : Str
  hook : Str
  style : Str
  timestamp : Str
  index : Str
  fbCopy : Str
  tags : List Str
  prompt : Str
deriving DecidableEq

/-- Tag resolution of `loadGalleryData`. -/
def resolveTags (metadata : Metadata) (fbCopy : Str) : RawTags → List Str
  | .csv (c :: cs) =>
    ((splitChar ',' (c :: cs)).map trim).filter (fun t => decide (t.length > 0))
  | .array (x :: xs) => x :: xs
  | _ =>
    let keywordsFromName :=
      splitChar '-' metadata.persona ++ splitChar '-' metadata.hook ++
        splitChar '-' metadata.style
    let keywordsFromCopy := extractKeywords fbCopy
    (uniqueInOrder (keywordsFromName ++ keywordsFromCopy)).take 12

/-- The body of the loop of `loadGalleryData`. -/
def normalizeEntry (item : RawEntry) : Item :=
  let metadata := parseFilename item.filename
  let fbCopy := orDefault item.fbCopy "No copy available".data
  { filename := item.filename
    thumbnail := orDefault item.thumbnail item.filename
    persona := metadata.persona
    hook := metadata.hook
    style := metadata.style
    timestamp := metadata.timestamp
    index := metadata.index
    fbCopy := fbCopy
    tags := resolveTags metadata fbCopy item.tags
    prompt := orDefault item.prompt [] }

/-- `loadGalleryData`. -/
def loadGalleryData (embeddedData : List RawEntry) : List Item :=
  embeddedData.map normalizeEntry

/-! ## Filter pipeline -/

/-- The two values of `currentTab`. -/
inductive Tab where
  | all
  | crushes
deriving DecidableEq

/-- The globals and the search box that `filterAndRender` reads. -/
structure FilterState where
  currentTab : Tab
  perfectModeActive : Bool
  searchValue : Str
  activeTagFilters : List Str
  activePersonaFilters : List Str
  activeHookFilters : List Str
  activeStyleFilters : List Str
deriving DecidableEq

/-- The fuzzy engine: the records of `fuseInstance.search(query)`, best first. -/
abbrev Engine := Str → List Item

/-- Tab stage. -/
def tabStage (currentTab : Tab) (crushedFilenames : List Str) (items : List Item) :
    List Item :=
  if currentTab = Tab.crushes then
    items.filter fun item => crushedFilenames.contains item.filename
  else items

/-- The `hasTypo` test of `createCard` and of the perfect-mode stage. -/
def hasTypo (item : Item) : Bool :=
  item.tags.any fun tag =>
    includes (toLowerCase tag) "text_typo_detected".data ||
      includes (toLowerCase tag) "typo:".data

/-- Perfect-mode stage. -/
def perfectStage (perfectModeActive : Bool) (items : List Item) : List Item :=
  if perfectModeActive then items.filter fun item => !hasTypo item else items

/-- Search stage. -/
def searchStage (search : Engine) (searchQuery : Str) (items : List Item) : List Item :=
  if searchQuery.isEmpty then items
  else
    let results := search searchQuery
    let resultFilenames := results.map fun r => r.filename
    items.filter fun item => resultFilenames.contains item.filename

/-- One metadata stage: `facet` selects persona, hook or style. -/
def metadataStage (facet : Item → Str) (active : List Str) (items : List Item) :
    List Item :=
  if active.length > 0 then
    items.filter fun item =>
      let itemValue := formatText (facet item)
      active.any fun v => v == itemValue
  else items

/-- The callback of the tag stage. -/
def hasAllTags (activeTagFilters : List Str) (item : Item) : Bool :=
  let itemTags := item.tags.map toLowerCase
  activeTagFilters.all fun tag => itemTags.contains (toLowerCase tag)

/-- Tag stage. -/
def tagStage (activeTagFilters : List Str) (items : List Item) : List Item :=
  if activeTagFilters.length > 0 then items.filter (hasAllTags activeTagFilters)
  else items

/-- The three metadata stages in source order. -/
def metadataStages (st : FilterState) (items : List Item) : List Item :=
  metadataStage Item.style st.activeStyleFilters
    (metadataStage Item.hook st.activeHookFilters
      (metadataStage Item.persona st.activePersonaFilters items))

/-- The value that the patched `filterAndRender` assigns to `currentItems`. -/
def visibleItems (allData : List Item) (crushes : List Str) (search : Engine)
    (st : FilterState) : List Item :=
  let searchQuery := trim st.searchValue
  let items := allData
  let items := tabStage st.currentTab crushes items
  let items := perfectStage st.perfectModeActive items
  let items := searchStage search searchQuery items
  let items := metadataStages st items
  tagStage st.activeTagFilters items

/-- The value that the original `filterAndRender` assigns to `currentItems`. -/
def originalItems (allData : List Item) (crushes : List Str) (search : Engine)
    (st : FilterState) : List Item :=
  let searchQuery := trim st.searchValue
  let items := tabStage st.currentTab crushes allData
  searchStage search searchQuery items

/-! ## Progressive rendering -/

/-- Page size. -/
def ITEMS_PER_PAGE : Nat := 12

/-- The pagination globals. -/
structure PageState where
  currentItems : List Item
  displayedCount : Nat
deriving DecidableEq

/-- `renderGalleryProgressive`, on the pagination globals. -/
def renderGalleryProgressive (s : PageState) : PageState :=
  if s.currentItems.length = 0 then s
  else { s with displayedCount := min (s.displayedCount + ITEMS_PER_PAGE) s.currentItems.length }

/-- `loadMoreItems`. -/
def loadMoreItems (s : PageState) : PageState := renderGalleryProgressive s

/-- The patched `filterAndRender`, on the pagination globals. -/
def filterAndRender (allData : List Item) (crushes : List Str) (search : Engine)
    (st : FilterState) : PageState :=
  renderGalleryProgressive
    { currentItems := visibleItems allData crushes search st, displayedCount := 0 }

/-- The original `filterAndRender`, on the pagination globals. -/
def originalFilterAndRender (allData : List Item) (crushes : List Str) (search : Engine)
    (st : FilterState) : PageState :=
  renderGalleryProgressive
    { currentItems := originalItems allData crushes search st, displayedCount := 0 }

/-! ## Sample data -/

/-- A catalog entry that supplies the filename only. -/
def entryOf (filename : String) : RawEntry :=
  { filename := filename.data, thumbnail := none, fbCopy := none, tags := RawTags.absent,
    prompt := none }

/-- The three-record catalog of the facet example. -/
def sampleCatalog : List Item :=
  loadGalleryData
    [entryOf "A__hookX__styleY__t__0", entryOf "B__hookX__styleZ__t__1",
      entryOf "C__hookQ__styleY__t__2"]

/-- A record with the given filename and tags and default metadata. -/
def itemWithTags (filename : String) (tags : List String) : Item :=
  { normalizeEntry (entryOf filename) with tags := tags.map String.data }

/-- No filter at all, on the All tab. -/
def noFilter : FilterState :=
  { currentTab := Tab.all, perfectModeActive := false, searchValue := [],
    activeTagFilters := [], activePersonaFilters := [], activeHookFilters := [],
    activeStyleFilters := [] }

/-- An engine that returns the same ranked list for every query. -/
def constEngine (results : List Item) : Engine := fun _ => results

/-- A two-record catalog, `a.png` before `b.png`. -/
def twoItems : List Item := [itemWithTags "a.png" [], itemWithTags "b.png" []]

/-- The two records of `twoItems` in the opposite order. -/
def twoItemsSwapped : List Item := [itemWithTags "b.png" [], itemWithTags "a.png" []]

/-- Only the Favorites tab is selected. -/
def favoritesOnly : FilterState := { noFilter with currentTab := Tab.crushes }

/-- Only perfect mode is switched on. -/
def perfectOnly : FilterState := { noFilter with perfectModeActive := true }

/-- Values on which `includes`, `indexOf` and spreading are defined. -/
def JsVal.isArrayOrString : JsVal → Bool
  | .arr _ => true
  | .str _ => true
  | _ => false

/-- A parser that knows only the text made of an opening and a closing brace. -/
def parseEmptyObject (data : Str) : Except Unit JsVal :=
  if data = "\x7b\x7d".data then Except.ok (JsVal.obj []) else Except.error ()

/-! ## Definitions for the normaliser, the facet index and pagination -/

/-- The five fields of `parseFilename`, in positional order. -/
def Metadata.fields (m : Metadata) : List Str :=
  [m.persona, m.hook, m.style, m.timestamp, m.index]

/-- The defaults of the five fields, in positional order. -/
def defaultFields : List Str :=
  ["Unknown".data, "Unknown".data, "Unknown".data, [], []]

/-- A filename segment that survives `parseFilename` as it is: it holds no
double underscore, does not end in an underscore and holds no dot. -/
def isSegment (s : Str) : Prop :=
  includes s "__".data = false ∧ s.getLast? ≠ some '_' ∧ '.' ∉ s

instance (s : Str) : Decidable (isSegment s) := by
  unfold isSegment
  infer_instance

/-- The list that the fallback of `loadGalleryData` removes duplicates from:
`keywordsFromName` followed by `keywordsFromCopy`. -/
def synthesisSource (item : RawEntry) : List Str :=
  splitChar '-' (parseFilename item.filename).persona ++
    splitChar '-' (parseFilename item.filename).hook ++
    splitChar '-' (parseFilename item.filename).style ++
    extractKeywords (orDefault item.fbCopy "No copy available".data)

/-- An entry of the maps of `getUniqueMetadata`. -/
structure FacetEntry where
  display : Str
  count : Nat
deriving DecidableEq

/-- A JavaScript `Map` with string keys: its entries in insertion order. -/
abbrev FacetMap := List (Str × FacetEntry)

/-- `m.get(key).count++`. -/
def bumpCount (m : FacetMap) (key : Str) : FacetMap :=
  m.map fun e => if e.1 = key then (e.1, { e.2 with count := e.2.count + 1 }) else e

/-- One facet of one iteration of the loop of `getUniqueMetadata`:
`if (!m.has(key)) m.set(key, ...); m.get(key).count++`. -/
def facetAdd (m : FacetMap) (value : Str) : FacetMap :=
  let key := toLowerCase value
  let m1 := if m.any (fun e => e.1 == key) then m
    else m ++ [(key, { display := formatText value, count := 0 })]
  bumpCount m1 key

/-- The three maps of `getUniqueMetadata` after the loop. -/
def getUniqueMetadataMaps (items : List Item) : FacetMap × FacetMap × FacetMap :=
  items.foldl
    (fun maps item =>
      (facetAdd maps.1 item.persona, facetAdd maps.2.1 item.hook,
        facetAdd maps.2.2 item.style))
    ([], [], [])

/-- The object returned by `getUniqueMetadata`. -/
structure UniqueMetadata where
  personas : List FacetEntry
  hooks : List FacetEntry
  styles : List FacetEntry
deriving DecidableEq

/-- `getUniqueMetadata`. -/
def getUniqueMetadata (items : List Item) : UniqueMetadata :=
  let maps := getUniqueMetadataMaps items
  { personas := maps.1.map Prod.snd
    hooks := maps.2.1.map Prod.snd
    styles := maps.2.2.map Prod.snd }

/-- One facet map computed on its own. -/
def facetMap (facet : Item → Str) (items : List Item) : FacetMap :=
  items.foldl (fun m item => facetAdd m (facet item)) []

/-- The closed form of an entry: the display form of the first record with the
key, and the number of records with the key. -/
def facetEntryOf (facet : Item → Str) (items : List Item) (key : Str) : FacetEntry :=
  { display :=
      match items.find? (fun item => toLowerCase (facet item) == key) with
      | some item => formatText (facet item)
      | none => []
    count := items.countP (fun item => toLowerCase (facet item) == key) }

/-- The facet index in closed form: one entry per distinct lowercased value, in
order of first occurrence. -/
def facetIndex (facet : Item → Str) (items : List Item) : List FacetEntry :=
  (uniqueInOrder (items.map fun item => toLowerCase (facet item))).map
    (facetEntryOf facet items)

/-- The stop-word set of `getTopTags`. -/
def topTagStopWords : List Str :=
  ["the", "a", "an", "and", "or", "but", "with", "from", "to", "for", "of", "in", "on", "at",
    "by", "as", "is", "are", "was", "were", "be", "been", "being", "have", "has", "had",
    "do", "does", "did", "will", "would", "should", "could", "may", "might", "must",
    "this", "that", "these", "those", "it", "its", "which", "who", "what", "where",
    "when"].map String.data

/-- A value stored in `tagCounts`: a number, or, for the key `constructor`, the
source text of the inherited `Object` function followed by `ones` digits `1`
(string concatenation by `+ 1`). -/
inductive CountVal where
  | num (n : Nat)
  | functionText (ones : Nat)
deriving DecidableEq

/-- A value read from `tagDisplay`: a tag, the inherited `Object` function (for
the key `constructor`), or `undefined`. -/
inductive DisplayVal where
  | tag (s : Str)
  | objectFunction
  | undefined
deriving DecidableEq

/-- The own properties of the plain objects `tagCounts` and `tagDisplay`, in
creation order. -/
structure TagTables where
  tagCounts : List (Str × CountVal)
  tagDisplay : List (Str × Str)
deriving DecidableEq

/-- `(tagCounts[key] || 0) + 1` for an own property. -/
def CountVal.succ : CountVal → CountVal
  | .num n => .num (n + 1)
  | .functionText ones => .functionText (ones + 1)

/-- `tagCounts[key] = (tagCounts[key] || 0) + 1` on a plain object: an own
property is updated in place; otherwise the key `constructor` reads the
inherited function, the key `__proto__` reads the prototype and its assignment
of a string is ignored, and any other key starts at `1`. -/
def countTag (tagCounts : List (Str × CountVal)) (key : Str) : List (Str × CountVal) :=
  if tagCounts.any (fun e => e.1 == key) then
    tagCounts.map fun e => if e.1 = key then (e.1, e.2.succ) else e
  else if key = "__proto__".data then tagCounts
  else if key = "constructor".data then tagCounts ++ [(key, CountVal.functionText 1)]
  else tagCounts ++ [(key, CountVal.num 1)]

/-- `if (!tagDisplay[key]) tagDisplay[key] = tag` on a plain object: the keys
`constructor` and `__proto__` read an inherited, truthy value. -/
def displayTag (tagDisplay : List (Str × Str)) (key tag : Str) : List (Str × Str) :=
  if tagDisplay.any (fun e => e.1 == key) then tagDisplay
  else if key = "__proto__".data then tagDisplay
  else if key = "constructor".data then tagDisplay
  else tagDisplay ++ [(key, tag)]

/-- The callback of the inner `forEach` of `getTopTags`; `seenInItem` is the set
of the current record. -/
def tagStep (acc : TagTables × List Str) (tag : Str) : TagTables × List Str :=
  let normalized := trim (toLowerCase tag)
  if !topTagStopWords.contains normalized && decide (utf16Length normalized > 2) &&
      !acc.2.contains normalized then
    ({ tagCounts := countTag acc.1.tagCounts normalized
       tagDisplay := displayTag acc.1.tagDisplay normalized tag },
      acc.2 ++ [normalized])
  else acc

/-- The callback of the outer `forEach` of `getTopTags`. -/
def itemStep (t : TagTables) (item : Item) : TagTables :=
  (item.tags.foldl tagStep (t, [])).1

/-- The two objects of `getTopTags` after the loops. -/
def tagTables (items : List Item) : TagTables :=
  items.foldl itemStep { tagCounts := [], tagDisplay := [] }

/-- A canonical array index: a decimal numeral without a leading zero, below
`2^32 - 1`. -/
def arrayIndex? (key : Str) : Option Nat :=
  if key.all Char.isDigit && !key.isEmpty && (key == ['0'] || key.head? != some '0') then
    let n := key.foldl (fun acc c => acc * 10 + (c.toNat - 48)) 0
    if n < 4294967295 then some n else none
  else none

/-- Insertion of an indexed property by ascending index. -/
def insertByIndex (e : Nat × Str × CountVal) :
    List (Nat × Str × CountVal) → List (Nat × Str × CountVal)
  | [] => [e]
  | f :: fs => if e.1 < f.1 then e :: f :: fs else f :: insertByIndex e fs

/-- The indexed properties by ascending index. -/
def sortByIndex : List (Nat × Str × CountVal) → List (Nat × Str × CountVal)
  | [] => []
  | e :: es => insertByIndex e (sortByIndex es)

/-- `Object.entries` on a plain object: the array-index keys first, by ascending
index, then the other keys in creation order. -/
def objectEntries (props : List (Str × CountVal)) : List (Str × CountVal) :=
  (sortByIndex (props.filterMap fun e => (arrayIndex? e.1).map fun n => (n, e))).map Prod.snd ++
    props.filter fun e => (arrayIndex? e.1).isNone

/-- The comparator `b[1] - a[1]` is positive: both counts are numbers and the
count of `b` is larger.  A count that is not a number gives `NaN`, which sorts
as equal. -/
def comesAfter (a b : CountVal) : Bool :=
  match a, b with
  | .num x, .num y => decide (x < y)
  | _, _ => false

/-- Stable insertion for `sort((a, b) => b[1] - a[1])`. -/
def insertByCount (e : Str × CountVal) : List (Str × CountVal) → List (Str × CountVal)
  | [] => [e]
  | f :: fs => if comesAfter e.2 f.2 then f :: insertByCount e fs else e :: f :: fs

/-- `sort((a, b) => b[1] - a[1])`, a stable sort.  When some count is not a
number the comparator is not consistent and the order is left to the engine;
the insertion order below is then one admissible outcome. -/
def sortByCount : List (Str × CountVal) → List (Str × CountVal)
  | [] => []
  | e :: es => insertByCount e (sortByCount es)

/-- `tagDisplay[key]` after the loops. -/
def lookupDisplay (tagDisplay : List (Str × Str)) (key : Str) : DisplayVal :=
  match tagDisplay.find? (fun e => e.1 == key) with
  | some e => DisplayVal.tag e.2
  | none => if key = "constructor".data then DisplayVal.objectFunction else DisplayVal.undefined

/-- An element of the array returned by `getTopTags`. -/
structure TopTag where
  tag : DisplayVal
  count : CountVal
deriving DecidableEq

/-- `getTopTags(items, limit)`. -/
def getTopTags (items : List Item) (limit : Nat) : List TopTag :=
  let t := tagTables items
  ((sortByCount (objectEntries t.tagCounts)).take limit).map fun e =>
    { tag := lookupDisplay t.tagDisplay e.1, count := e.2 }

/-- What `renderGalleryProgressive` writes into the gallery element. -/
inductive GalleryView where
  | noResults (message : Str)
  | cards (itemsToShow : List Item) (viewMoreRemaining : Option Nat)
deriving DecidableEq

/-- The gallery element after `renderGalleryProgressive` was run in state `s`. -/
def renderedView (currentTab : Tab) (s : PageState) : GalleryView :=
  if s.currentItems.length = 0 then
    GalleryView.noResults
      (if currentTab = Tab.crushes then
        "No crushes yet. Click the bolt icon on any ad to add it here!".data
      else "No ads found matching your search".data)
  else
    let nextCount := min (s.displayedCount + ITEMS_PER_PAGE) s.currentItems.length
    GalleryView.cards (s.currentItems.take nextCount)
      (if nextCount < s.currentItems.length then some (s.currentItems.length - nextCount)
      else none)

/-- The "View More" button is in the gallery element. -/
def GalleryView.hasViewMore : GalleryView → Bool
  | .cards _ (some _) => true
  | _ => false

/-- `renderGallery(items)`, on the pagination globals. -/
def renderGallery (s : PageState) (items : List Item) : PageState :=
  renderGalleryProgressive { s with currentItems := items, displayedCount := 0 }

/-- The pagination globals when the script is loaded. -/
def initialPage : PageState := { currentItems := [], displayedCount := 0 }

/-- `initGallery`, on the pagination globals. -/
def initGallery (allData : List Item) : PageState :=
  renderGallery { initialPage with currentItems := allData } allData

/-- The events that write the pagination globals. -/
inductive PageAction where
  | filterAndRender (allData : List Item) (crushes : List Str) (search : Engine)
      (st : FilterState)
  | renderGallery (items : List Item)
  | loadMoreItems
  | observerIntersects

/-- One event. -/
def PageAction.apply (s : PageState) : PageAction → PageState
  | .filterAndRender allData crushes search st =>
    renderGalleryProgressive
      { s with currentItems := visibleItems allData crushes search st, displayedCount := 0 }
  | .renderGallery items => Gallery.renderGallery s items
  | .loadMoreItems => Gallery.loadMoreItems s
  | .observerIntersects =>
    if s.displayedCount < s.currentItems.length then Gallery.loadMoreItems s else s

/-- A sequence of events. -/
def runActions (s : PageState) (actions : List PageAction) : PageState :=
  actions.foldl PageAction.apply s

/-- A record with the given filename, persona, hook and style and no tags. -/
def itemWithFacets (filename persona hook style : String) : Item :=
  { normalizeEntry (entryOf filename) with
    persona := persona.data, hook := hook.data, style := style.data, tags := [] }

/-! ## Definitions for the filter state, the single pass and the store history -/

/-- `clearAllFilters`, on the filter state; the tab is not touched. -/
def clearAllFilters (st : FilterState) : FilterState :=
  { st with
    searchValue := []
    activeTagFilters := []
    activePersonaFilters := []
    activeHookFilters := []
    activeStyleFilters := []
    perfectModeActive := false }

/-- `hasActiveFilters`. -/
def hasActiveFilters (st : FilterState) : Bool :=
  !(trim st.searchValue).isEmpty || decide (st.activeTagFilters.length > 0) ||
    decide (st.activePersonaFilters.length > 0) || decide (st.activeHookFilters.length > 0) ||
    decide (st.activeStyleFilters.length > 0) || st.perfectModeActive

/-- The conjunction of the active predicates of the pipeline, stated once for a
record: tab, quality, search, persona, hook, style, tag. -/
def keepsRecord (crushes : List Str) (search : Engine) (st : FilterState) (item : Item) :
    Prop :=
  (st.currentTab = Tab.crushes → item.filename ∈ crushes) ∧
  (st.perfectModeActive = true → hasTypo item = false) ∧
  (trim st.searchValue ≠ [] →
    ∃ r ∈ search (trim st.searchValue), r.filename = item.filename) ∧
  (st.activePersonaFilters ≠ [] → formatText item.persona ∈ st.activePersonaFilters) ∧
  (st.activeHookFilters ≠ [] → formatText item.hook ∈ st.activeHookFilters) ∧
  (st.activeStyleFilters ≠ [] → formatText item.style ∈ st.activeStyleFilters) ∧
  (∀ t ∈ st.activeTagFilters, ∃ tag ∈ item.tags, toLowerCase tag = toLowerCase t)

instance (crushes : List Str) (search : Engine) (st : FilterState) (item : Item) :
    Decidable (keepsRecord crushes search st item) := by
  unfold keepsRecord
  infer_instance

/-- One pass over the catalog that keeps the records satisfying `keepsRecord`. -/
def singlePass (allData : List Item) (crushes : List Str) (search : Engine)
    (st : FilterState) : List Item :=
  allData.filter fun item => decide (keepsRecord crushes search st item)

/-- The store after a sequence of `toggle` calls. -/
def toggleAll (m : CrushManager) (ids : List Str) : CrushManager :=
  ids.foldl (fun acc id => (acc.toggle id).1) m

/-- Two records whose personas differ in letter case only. -/
def caseVariantCatalog : List Item :=
  [itemWithFacets "a.png" "mom" "hook" "style", itemWithFacets "b.png" "mOM" "hook" "style"]

/-- Two records with the same tag, once with surrounding blanks. -/
def paddedTagCatalog : List Item :=
  [itemWithTags "a.png" ["Red"], itemWithTags "b.png" [" red "]]

/-- `extractKeywords` with the host function `toLowerCase` as a parameter. -/
def extractKeywordsWith (lower : Str → Str) (text : Str) : List Str :=
  ((splitNonWord (lower text)).filter
    (fun w => decide (w.length > 3) && !stopWords.contains w)).take 15

/-- The defect markers in the words of the specification: a tag that contains
`text-typo-detected`, letter case ignored, or that starts with `typo:`. -/
def matchesDocumentedMarker (tag : Str) : Bool :=
  includes (toLowerCase tag) "text-typo-detected".data ||
    ("typo:".data).isPrefixOf (toLowerCase tag)

/-! ## Stage lemmas -/

theorem tabStage_all (crushes : List Str) (items : List Item) :
    tabStage Tab.all crushes items = items := by
  simp [tabStage]

theorem tabStage_crushes (crushes : List Str) (items : List Item) :
    tabStage Tab.crushes crushes items =
      items.filter (fun item => crushes.contains item.filename) := by
  simp [tabStage]

theorem perfectStage_off (items : List Item) : perfectStage false items = items := by
  simp [perfectStage]

theorem perfectStage_on (items : List Item) :
    perfectStage true items = items.filter (fun item => !hasTypo item) := by
  simp [perfectStage]

theorem searchStage_empty (search : Engine) (items : List Item) :
    searchStage search [] items = items := by
  simp [searchStage]

theorem searchStage_query (search : Engine) (q : Str) (hq : q ≠ []) (items : List Item) :
    searchStage search q items =
      items.filter (fun item => ((search q).map Item.filename).contains item.filename) := by
  cases q with
  | nil => exact absurd rfl hq
  | cons c cs => simp [searchStage]

theorem metadataStage_nil (facet : Item → Str) (items : List Item) :
    metadataStage facet [] items = items := by
  simp [metadataStage]

theorem metadataStage_eq_filter (facet : Item → Str) (active : List Str) (items : List Item) :
    metadataStage facet active items =
      items.filter (fun item => decide (active ≠ [] → formatText (facet item) ∈ active)) := by
  cases active with
  | nil => simp [metadataStage]
  | cons v vs =>
    simp only [metadataStage, List.length_cons, gt_iff_lt, Nat.zero_lt_succ, if_true]
    apply List.filter_congr
    intro item _
    rw [Bool.eq_iff_iff]
    simp only [List.any_eq_true, beq_iff_eq, decide_eq_true_iff]
    constructor
    · rintro ⟨x, hx, rfl⟩ _
      exact hx
    · intro h
      exact ⟨_, h (List.cons_ne_nil _ _), rfl⟩

theorem tagStage_nil (items : List Item) : tagStage [] items = items := by
  simp [tagStage]

theorem tagStage_cons (t : Str) (ts : List Str) (items : List Item) :
    tagStage (t :: ts) items = items.filter (hasAllTags (t :: ts)) := by
  simp [tagStage]

theorem hasAllTags_iff (activeTagFilters : List Str) (item : Item) :
    hasAllTags activeTagFilters item = true ↔
      ∀ t ∈ activeTagFilters, ∃ tag ∈ item.tags, toLowerCase tag = toLowerCase t := by
  simp [hasAllTags, List.all_eq_true]

theorem tabStage_sublist (tab : Tab) (crushes : List Str) (items : List Item) :
    (tabStage tab crushes items).Sublist items := by
  unfold tabStage
  split
  · exact List.filter_sublist _
  · exact List.Sublist.refl _

theorem perfectStage_sublist (b : Bool) (items : List Item) :
    (perfectStage b items).Sublist items := by
  unfold perfectStage
  split
  · exact List.filter_sublist _
  · exact List.Sublist.refl _

theorem searchStage_sublist (search : Engine) (q : Str) (items : List Item) :
    (searchStage search q items).Sublist items := by
  unfold searchStage
  split
  · exact List.Sublist.refl _
  · exact List.filter_sublist _

theorem metadataStage_sublist (facet : Item → Str) (active : List Str) (items : List Item) :
    (metadataStage facet active items).Sublist items := by
  unfold metadataStage
  split
  · exact List.filter_sublist _
  · exact List.Sublist.refl _

theorem metadataStages_sublist (st : FilterState) (items : List Item) :
    (metadataStages st items).Sublist items :=
  ((metadataStage_sublist _ _ _).trans (metadataStage_sublist _ _ _)).trans
    (metadataStage_sublist _ _ _)

theorem tagStage_sublist (active : List Str) (items : List Item) :
    (tagStage active items).Sublist items := by
  unfold tagStage
  split
  · exact List.filter_sublist _
  · exact List.Sublist.refl _

/-- On the All tab with an empty search box neither the favourites nor the
engine are consulted. -/
theorem visibleItems_all_noQuery (allData : List Item) (crushes : List Str) (search : Engine)
    (st : FilterState) (htab : st.currentTab = Tab.all) (hq : trim st.searchValue = []) :
    visibleItems allData crushes search st =
      tagStage st.activeTagFilters
        (metadataStages st (perfectStage st.perfectModeActive allData)) := by
  simp [visibleItems, htab, hq, tabStage_all, searchStage_empty]

/-- With only perfect mode on, the visible set is the catalog without the
records flagged by `hasTypo`. -/
theorem visibleItems_perfectOnly (allData : List Item) (crushes : List Str)
    (search : Engine) :
    visibleItems allData crushes search perfectOnly =
      allData.filter (fun item => !hasTypo item) := by
  simp [visibleItems, perfectOnly, noFilter, tabStage_all, perfectStage_on, metadataStages,
    metadataStage_nil, tagStage_nil, trim, searchStage_empty]

/-- With perfect mode on, whatever else is selected, no visible record is flagged. -/
theorem hasTypo_false_of_mem_visibleItems (allData : List Item) (crushes : List Str)
    (search : Engine) (st : FilterState) (hp : st.perfectModeActive = true) (item : Item)
    (hmem : item ∈ visibleItems allData crushes search st) : hasTypo item = false := by
  have hsub : (visibleItems allData crushes search st).Sublist
      (perfectStage true (tabStage st.currentTab crushes allData)) := by
    simp only [visibleItems, hp]
    exact ((tagStage_sublist _ _).trans (metadataStages_sublist _ _)).trans
      (searchStage_sublist _ _ _)
  have h := hsub.subset hmem
  rw [perfectStage_on, List.mem_filter] at h
  simpa using h.2

theorem hasTypo_iff (item : Item) :
    hasTypo item = true ↔
      ∃ tag ∈ item.tags, includes (toLowerCase tag) "text_typo_detected".data = true ∨
        includes (toLowerCase tag) "typo:".data = true := by
  simp [hasTypo, List.any_eq_true]

/-! ### `CrushManager` lemmas -/

theorem indexOf_ge (xs : List Str) (a : Str) : -1 ≤ indexOf xs a := by
  induction xs with
  | nil => simp [indexOf]
  | cons x xs ih =>
    simp only [indexOf]
    split
    · omega
    · split <;> omega

theorem indexOf_gt_iff (xs : List Str) (a : Str) : indexOf xs a > -1 ↔ a ∈ xs := by
  induction xs with
  | nil => simp [indexOf]
  | cons x xs ih =>
    simp only [indexOf, List.mem_cons]
    by_cases hx : x = a
    · simp [hx]
    · have hx' : ¬ a = x := fun h => hx h.symm
      simp only [hx, hx', if_false, false_or]
      rw [← ih]
      split <;> omega

theorem eraseIdx_indexOf (xs : List Str) (a : Str) (h : a ∈ xs) :
    xs.eraseIdx (indexOf xs a).toNat = xs.erase a := by
  induction xs with
  | nil => simp at h
  | cons x xs ih =>
    by_cases hx : x = a
    · simp [indexOf, hx]
    · have hmem : a ∈ xs := by
        rcases List.mem_cons.mp h with h1 | h1
        · exact absurd h1.symm hx
        · exact h1
      have hpos : indexOf xs a > -1 := (indexOf_gt_iff xs a).mpr hmem
      have hnat : (indexOf xs a + 1).toNat = (indexOf xs a).toNat + 1 := by omega
      simp only [indexOf, hx, if_false, hpos, if_true, hnat, List.eraseIdx_cons_succ]
      rw [ih hmem, List.erase_cons_tail]
      simpa using hx

theorem perm_cons_erase_str {a : Str} {l : List Str} (h : a ∈ l) :
    l.Perm (a :: l.erase a) := by
  obtain ⟨l₁, l₂, _, h₁, h₂⟩ := List.exists_erase_eq h
  rw [h₂, h₁]
  exact List.perm_middle

theorem eq_of_crushes_eq (m m' : CrushManager) (h : m.crushes = m'.crushes) : m = m' := by
  cases m
  cases m'
  simp_all

theorem toggle_crushes_of_mem (m : CrushManager) (a : Str) (h : a ∈ m.crushes) :
    (m.toggle a).1.crushes = m.crushes.erase a := by
  have hpos : indexOf m.crushes a > -1 := (indexOf_gt_iff _ _).mpr h
  simp [CrushManager.toggle, hpos, eraseIdx_indexOf _ _ h]

theorem toggle_crushes_of_not_mem (m : CrushManager) (a : Str) (h : a ∉ m.crushes) :
    (m.toggle a).1.crushes = m.crushes ++ [a] := by
  have hneg : ¬ indexOf m.crushes a > -1 := fun hp => h ((indexOf_gt_iff _ _).mp hp)
  simp [CrushManager.toggle, hneg]

theorem toggle_snd (m : CrushManager) (a : Str) :
    (m.toggle a).2 = (m.toggle a).1.isCrushed a := rfl

theorem isCrushed_iff (m : CrushManager) (a : Str) : m.isCrushed a = true ↔ a ∈ m.crushes := by
  simp [CrushManager.isCrushed]

/-- On an array of strings the raw operations are those of `CrushManager`. -/
theorem isCrushedRaw_strings (xs : List Str) (filename : Str) :
    isCrushedRaw (JsVal.arr (xs.map JsVal.str)) filename =
      Except.ok ((CrushManager.mk xs).isCrushed filename) := by
  simp only [isCrushedRaw, CrushManager.isCrushed]
  congr 1
  induction xs with
  | nil => rfl
  | cons x xs ih =>
    have e : (x == filename) = (filename == x) :=
      Bool.eq_iff_iff.mpr (by simp only [beq_iff_eq]; exact eq_comm)
    simp only [List.map_cons, List.any_cons, ih, JsVal.isStr, List.contains_cons, e]

/-- A missing entry, a failing storage, an empty text and unparseable text all
give the empty array. -/
theorem load_absent_or_unparseable (jsonParse : Str → Except Unit JsVal) (data : Str)
    (hbad : jsonParse data = Except.error ()) :
    CrushManager.load (Except.error ()) jsonParse = JsVal.arr [] ∧
    CrushManager.load (Except.ok none) jsonParse = JsVal.arr [] ∧
    CrushManager.load (Except.ok (some [])) jsonParse = JsVal.arr [] ∧
    CrushManager.load (Except.ok (some data)) jsonParse = JsVal.arr [] := by
  refine ⟨rfl, rfl, rfl, ?_⟩
  simp only [CrushManager.load, hbad]
  split <;> rfl

/-! ## The claims -/

/-- C1: for a non-empty selection of tags, a record survives the tag stage
exactly when every selected tag has, among the record's tags, one with the same
lowercase form; and reordering the record's tags does not change whether it
survives. -/
theorem tagStage_and_composition (activeTagFilters : List Str) (hne : activeTagFilters ≠ [])
    (items : List Item) (item : Item) :
    (item ∈ tagStage activeTagFilters items ↔
      item ∈ items ∧
        ∀ t ∈ activeTagFilters, ∃ tag ∈ item.tags, toLowerCase tag = toLowerCase t) ∧
    (∀ tags : List Str, tags.Perm item.tags →
      ({ item with tags := tags } ∈ tagStage activeTagFilters [{ item with tags := tags }] ↔
        item ∈ tagStage activeTagFilters [item])) := by
  cases activeTagFilters with
  | nil => exact absurd rfl hne
  | cons t ts =>
    refine ⟨?_, ?_⟩
    · rw [tagStage_cons, List.mem_filter, hasAllTags_iff]
    · intro tags hperm
      simp only [tagStage_cons, List.mem_filter, List.mem_singleton, true_and, hasAllTags_iff]
      constructor
      · intro h u hu
        obtain ⟨tag, htag, hlow⟩ := h u hu
        exact ⟨tag, hperm.mem_iff.mp htag, hlow⟩
      · intro h u hu
        obtain ⟨tag, htag, hlow⟩ := h u hu
        exact ⟨tag, hperm.mem_iff.mpr htag, hlow⟩

/-- Witness of C1: the tags `Red` and `BOLD` are selected, the record carries
`bold` and `red`. -/
theorem tagStage_and_composition_witness :
    itemWithTags "a.png" ["bold", "red"] ∈
      tagStage ["Red".data, "BOLD".data] [itemWithTags "a.png" ["bold", "red"]] :=
  ((tagStage_and_composition ["Red".data, "BOLD".data] (by decide)
      [itemWithTags "a.png" ["bold", "red"]] (itemWithTags "a.png" ["bold", "red"])).1).mpr
    (by decide)

/-- C2: the three metadata stages keep exactly the records that, for every facet
with a non-empty selection, have their formatted value among the selected
values; a facet with an empty selection restricts nothing. -/
theorem metadataStages_or_within_and_across (st : FilterState) (items : List Item)
    (item : Item) :
    (item ∈ metadataStages st items ↔
      item ∈ items ∧
        (st.activePersonaFilters ≠ [] → formatText item.persona ∈ st.activePersonaFilters) ∧
        (st.activeHookFilters ≠ [] → formatText item.hook ∈ st.activeHookFilters) ∧
        (st.activeStyleFilters ≠ [] → formatText item.style ∈ st.activeStyleFilters)) ∧
    metadataStages st items =
      items.filter (fun r =>
        decide ((st.activePersonaFilters ≠ [] → formatText r.persona ∈ st.activePersonaFilters) ∧
          (st.activeHookFilters ≠ [] → formatText r.hook ∈ st.activeHookFilters) ∧
          (st.activeStyleFilters ≠ [] → formatText r.style ∈ st.activeStyleFilters))) := by
  have heq : metadataStages st items =
      items.filter (fun r =>
        decide ((st.activePersonaFilters ≠ [] → formatText r.persona ∈ st.activePersonaFilters) ∧
          (st.activeHookFilters ≠ [] → formatText r.hook ∈ st.activeHookFilters) ∧
          (st.activeStyleFilters ≠ [] → formatText r.style ∈ st.activeStyleFilters))) := by
    simp only [metadataStages, metadataStage_eq_filter, List.filter_filter]
    apply List.filter_congr
    intro r _
    rw [Bool.eq_iff_iff]
    simp only [Bool.and_eq_true, decide_eq_true_iff]
    tauto
  refine ⟨?_, heq⟩
  rw [heq, List.mem_filter, decide_eq_true_iff]

/-- Witness of C2: personas `A` and `B` and style `StyleY` are selected in the
sample catalog; the record of persona `A` survives. -/
theorem metadataStages_or_within_and_across_witness :
    (metadataStages
      { noFilter with activePersonaFilters := ["A".data, "B".data],
                      activeStyleFilters := ["StyleY".data] } sampleCatalog).map Item.filename =
      ["A__hookX__styleY__t__0".data] := by
  rw [(metadataStages_or_within_and_across _ sampleCatalog
    (normalizeEntry (entryOf "A__hookX__styleY__t__0"))).2]
  decide

/-- C3, counterexample: selecting the style display value `Y` does not yield the
records `A...` and `C...`; their style segment `styleY` is displayed as `StyleY`. -/
theorem sampleCatalog_style_Y_counterexample :
    (visibleItems sampleCatalog [] (constEngine [])
        { noFilter with activeStyleFilters := ["Y".data] }).map Item.filename ≠
      ["A__hookX__styleY__t__0".data, "C__hookQ__styleY__t__2".data] := by
  decide

/-- C3, amended: in the three-record catalog, on the All tab with no other
filter, persona `A` yields exactly the record `A...`; style `Y` yields no
record, while the display value `StyleY` of the segment `styleY` yields exactly
`A...` and `C...`; persona `A` with style `Y` yields no record, and persona `A`
with style `StyleY` yields exactly `A...`. -/
theorem sampleCatalog_facet_example (crushes : List Str) (search : Engine) :
    (visibleItems sampleCatalog crushes search
        { noFilter with activePersonaFilters := ["A".data] }).map Item.filename =
      ["A__hookX__styleY__t__0".data] ∧
    visibleItems sampleCatalog crushes search
        { noFilter with activeStyleFilters := ["Y".data] } = [] ∧
    (visibleItems sampleCatalog crushes search
        { noFilter with activeStyleFilters := ["StyleY".data] }).map Item.filename =
      ["A__hookX__styleY__t__0".data, "C__hookQ__styleY__t__2".data] ∧
    visibleItems sampleCatalog crushes search
        { noFilter with activePersonaFilters := ["A".data],
                        activeStyleFilters := ["Y".data] } = [] ∧
    (visibleItems sampleCatalog crushes search
        { noFilter with activePersonaFilters := ["A".data],
                        activeStyleFilters := ["StyleY".data] }).map Item.filename =
      ["A__hookX__styleY__t__0".data] := by
  refine ⟨?_, ?_, ?_, ?_, ?_⟩ <;>
    (rw [visibleItems_all_noQuery sampleCatalog crushes search _ (by rfl) (by rfl)]; decide)

/-- C4, counterexample: with `b.png` favourited before `a.png`, the Favorites
tab lists `a.png` before `b.png`, which is not the favourites list restricted to
the catalog. -/
theorem favorites_tab_order_counterexample :
    (visibleItems twoItems (CrushManager.mk ["b.png".data, "a.png".data]).getAll
        (constEngine []) favoritesOnly).map Item.filename ≠
      (CrushManager.mk ["b.png".data, "a.png".data]).getAll.filter
        (fun f => (twoItems.map Item.filename).contains f) := by
  decide

/-- C4, amended: on the Favorites tab with no other filter the visible set is
the catalog restricted to the records whose filename is in the favourites list,
in original catalog order. -/
theorem favorites_tab_catalog_order (allData : List Item) (m : CrushManager)
    (search : Engine) :
    visibleItems allData m.getAll search favoritesOnly =
      allData.filter (fun item => m.getAll.contains item.filename) ∧
    (visibleItems allData m.getAll search favoritesOnly).Sublist allData := by
  have h : visibleItems allData m.getAll search favoritesOnly =
      allData.filter (fun item => m.getAll.contains item.filename) := by
    simp [visibleItems, favoritesOnly, noFilter, tabStage_crushes, perfectStage_off,
      metadataStages, metadataStage_nil, tagStage_nil, trim, searchStage_empty]
  exact ⟨h, h ▸ List.filter_sublist _⟩

/-- C5, counterexample: the engine ranks `b.png` before `a.png`, yet the visible
set lists `a.png` before `b.png`: it is the catalog itself and not a sub-list of
the ranked result. -/
theorem search_order_counterexample :
    visibleItems twoItems [] (constEngine twoItemsSwapped)
        { noFilter with searchValue := "ad".data } = twoItems ∧
    ¬ (visibleItems twoItems [] (constEngine twoItemsSwapped)
        { noFilter with searchValue := "ad".data }).Sublist
          (constEngine twoItemsSwapped (trim "ad".data)) := by
  decide

/-- C5, amended: with a non-empty trimmed query, on the All tab with no other
filter, the visible set is the catalog restricted to the records whose filename
occurs in the engine's result, in original catalog order. -/
theorem search_keeps_catalog_order (allData : List Item) (crushes : List Str)
    (search : Engine) (searchValue : Str) (hq : trim searchValue ≠ []) :
    visibleItems allData crushes search { noFilter with searchValue := searchValue } =
      allData.filter (fun item =>
        ((search (trim searchValue)).map Item.filename).contains item.filename) ∧
    (visibleItems allData crushes search
      { noFilter with searchValue := searchValue }).Sublist allData := by
  have h : visibleItems allData crushes search { noFilter with searchValue := searchValue } =
      allData.filter (fun item =>
        ((search (trim searchValue)).map Item.filename).contains item.filename) := by
    simp only [visibleItems, noFilter, tabStage_all, perfectStage_off, metadataStages,
      metadataStage_nil, tagStage_nil]
    exact searchStage_query search _ hq allData
  exact ⟨h, h ▸ List.filter_sublist _⟩

/-- Witness of the amended C5: the query ` ad ` against the swapped ranking. -/
theorem search_keeps_catalog_order_witness :
    visibleItems twoItems [] (constEngine twoItemsSwapped)
        { noFilter with searchValue := " ad ".data } =
      twoItems.filter (fun item =>
        (((constEngine twoItemsSwapped) (trim " ad ".data)).map Item.filename).contains
          item.filename) :=
  (search_keeps_catalog_order twoItems [] (constEngine twoItemsSwapped) " ad ".data
    (by decide)).1

/-- C6, counterexample: with perfect mode on, the records tagged
`text_typo_detected` and `has-typo:` are dropped, although none of their tags
matches a marker as the specification words it (`text-typo-detected` contained,
or `typo:` at the start). -/
theorem undocumented_marker_counterexample :
    visibleItems
        [itemWithTags "a.png" ["text_typo_detected"], itemWithTags "b.png" ["has-typo:"]]
        [] (constEngine []) perfectOnly = [] ∧
      (itemWithTags "a.png" ["text_typo_detected"]).tags.any matchesDocumentedMarker = false ∧
      (itemWithTags "b.png" ["has-typo:"]).tags.any matchesDocumentedMarker = false := by
  decide

/-- C6, amended: with perfect mode on, a record with a tag equal to
`typo:spelling` is never visible; a catalog record whose only tag is
`typography` stays visible when nothing else is filtered; and a catalog record
is dropped by perfect mode exactly when one of its tags, lowercased, contains
the text `text_typo_detected` (with underscores) or the text `typo:`, at any
position. -/
theorem perfect_mode_only_markers (allData : List Item) (crushes : List Str) (search : Engine)
    (st : FilterState) (item : Item) :
    (st.perfectModeActive = true → "typo:spelling".data ∈ item.tags →
      item ∉ visibleItems allData crushes search st) ∧
    (item ∈ allData → item.tags = ["typography".data] →
      item ∈ visibleItems allData crushes search perfectOnly) ∧
    (item ∈ allData →
      (item ∉ visibleItems allData crushes search perfectOnly ↔
        ∃ tag ∈ item.tags, includes (toLowerCase tag) "text_typo_detected".data = true ∨
          includes (toLowerCase tag) "typo:".data = true)) := by
  refine ⟨?_, ?_, ?_⟩
  · intro hp htag hmem
    have hfalse := hasTypo_false_of_mem_visibleItems allData crushes search st hp item hmem
    have htrue : hasTypo item = true :=
      (hasTypo_iff item).mpr ⟨_, htag, Or.inr (by decide)⟩
    rw [hfalse] at htrue
    exact Bool.false_ne_true htrue
  · intro hmem htags
    rw [visibleItems_perfectOnly, List.mem_filter]
    refine ⟨hmem, ?_⟩
    have : hasTypo item = false := by
      simp only [hasTypo, htags]
      decide
    simp [this]
  · intro hmem
    rw [visibleItems_perfectOnly, List.mem_filter, ← hasTypo_iff]
    simp [hmem]

/-- Witness of C6: the record tagged `typo:spelling` is dropped and the record
tagged `typography` is kept. -/
theorem perfect_mode_only_markers_witness :
    itemWithTags "a.png" ["typo:spelling"] ∉
        visibleItems [itemWithTags "a.png" ["typo:spelling"], itemWithTags "b.png" ["typography"]]
          [] (constEngine []) perfectOnly ∧
      itemWithTags "b.png" ["typography"] ∈
        visibleItems [itemWithTags "a.png" ["typo:spelling"], itemWithTags "b.png" ["typography"]]
          [] (constEngine []) perfectOnly :=
  ⟨(perfect_mode_only_markers _ [] (constEngine []) perfectOnly
      (itemWithTags "a.png" ["typo:spelling"])).1 rfl (by decide),
    (perfect_mode_only_markers _ [] (constEngine []) perfectOnly
      (itemWithTags "b.png" ["typography"])).2.1 (by decide) rfl⟩

/-- C7, counterexample: with perfect mode on, the record whose single tag is
`Text-Typo-Detected` stays in the visible set. -/
theorem hyphen_marker_counterexample :
    visibleItems [itemWithTags "a.png" ["Text-Typo-Detected"]] [] (constEngine [])
        perfectOnly = [itemWithTags "a.png" ["Text-Typo-Detected"]] := by
  decide

/-- C7, amended: with perfect mode on, every record one of whose tags contains,
case-insensitively and as a substring, the marker `text_typo_detected` (written
with underscores) is dropped. -/
theorem perfect_mode_underscore_marker (allData : List Item) (crushes : List Str)
    (search : Engine) (st : FilterState) (hp : st.perfectModeActive = true) (item : Item)
    (tag : Str) (htag : tag ∈ item.tags)
    (hmark : includes (toLowerCase tag) "text_typo_detected".data = true) :
    item ∉ visibleItems allData crushes search st := by
  intro hmem
  have hfalse := hasTypo_false_of_mem_visibleItems allData crushes search st hp item hmem
  have htrue : hasTypo item = true := (hasTypo_iff item).mpr ⟨tag, htag, Or.inl hmark⟩
  rw [hfalse] at htrue
  exact Bool.false_ne_true htrue

/-- Witness of the amended C7: the single tag `Text_Typo_Detected`. -/
theorem perfect_mode_underscore_marker_witness :
    itemWithTags "a.png" ["Text_Typo_Detected"] ∉
      visibleItems [itemWithTags "a.png" ["Text_Typo_Detected"]] [] (constEngine [])
        perfectOnly :=
  perfect_mode_underscore_marker _ [] (constEngine []) perfectOnly rfl
    (itemWithTags "a.png" ["Text_Typo_Detected"]) "Text_Typo_Detected".data (by decide)
    (by decide)

/-- C8, counterexample: toggling `a` twice in the store `[a, b]` leaves `[b, a]`. -/
theorem toggle_twice_order_counterexample :
    (((CrushManager.mk ["a".data, "b".data]).toggle "a".data).1.toggle "a".data).1.crushes =
        ["b".data, "a".data] ∧
      (((CrushManager.mk ["a".data, "b".data]).toggle "a".data).1.toggle "a".data).1 ≠
        CrushManager.mk ["a".data, "b".data] := by
  decide

/-- C8, amended: toggling an identifier twice restores the stored list exactly
when the identifier was not a favourite before; when it was one, in a
duplicate-free list, it moves to the end of the list, so the list holds the same
identifiers (every membership is restored) in a possibly different order. -/
theorem toggle_twice (m : CrushManager) (id : Str) :
    (id ∉ m.crushes → ((m.toggle id).1.toggle id).1 = m) ∧
    (m.crushes.Nodup → id ∈ m.crushes →
      ((m.toggle id).1.toggle id).1.crushes = m.crushes.erase id ++ [id]) ∧
    (m.crushes.Nodup → ((m.toggle id).1.toggle id).1.crushes.Perm m.crushes) ∧
    (m.crushes.Nodup → ∀ x, ((m.toggle id).1.toggle id).1.isCrushed x = m.isCrushed x) := by
  have hnot : id ∉ m.crushes → ((m.toggle id).1.toggle id).1.crushes = m.crushes := by
    intro h
    have h1 := toggle_crushes_of_not_mem m id h
    have h2 : id ∈ (m.toggle id).1.crushes := by simp [h1]
    rw [toggle_crushes_of_mem _ _ h2, h1, List.erase_append_right _ h]
    simp
  have hin : m.crushes.Nodup → id ∈ m.crushes →
      ((m.toggle id).1.toggle id).1.crushes = m.crushes.erase id ++ [id] := by
    intro hnd h
    have h1 := toggle_crushes_of_mem m id h
    have h2 : id ∉ (m.toggle id).1.crushes := by
      rw [h1]
      exact fun hmem => ((List.Nodup.mem_erase_iff hnd).mp hmem).1 rfl
    rw [toggle_crushes_of_not_mem _ _ h2, h1]
  have hperm : m.crushes.Nodup → ((m.toggle id).1.toggle id).1.crushes.Perm m.crushes := by
    intro hnd
    by_cases h : id ∈ m.crushes
    · rw [hin hnd h]
      have hc : ([id] ++ m.crushes.erase id).Perm m.crushes := (perm_cons_erase_str h).symm
      exact (List.perm_append_comm).trans hc
    · rw [hnot h]
  refine ⟨?_, hin, hperm, ?_⟩
  · intro h
    exact eq_of_crushes_eq _ _ (hnot h)
  · intro hnd x
    have hp := hperm hnd
    rw [Bool.eq_iff_iff, isCrushed_iff, isCrushed_iff]
    exact hp.mem_iff

/-- Witness of the amended C8: `c` is not in `[a, b]`, and `a` moves to the end. -/
theorem toggle_twice_witness :
    (((CrushManager.mk ["a".data, "b".data]).toggle "c".data).1.toggle "c".data).1 =
        CrushManager.mk ["a".data, "b".data] ∧
      (((CrushManager.mk ["a".data, "b".data]).toggle "a".data).1.toggle "a".data).1.crushes =
        (CrushManager.mk ["a".data, "b".data]).crushes.erase "a".data ++ ["a".data] :=
  ⟨(toggle_twice (CrushManager.mk ["a".data, "b".data]) "c".data).1 (by decide),
    (toggle_twice (CrushManager.mk ["a".data, "b".data]) "a".data).2.1 (by decide)
      (by decide)⟩

/-- C9, counterexample: in the store `[a, a]`, `toggle(a)` returns `true` although
`a` was a favourite before the call. -/
theorem toggle_duplicate_counterexample :
    (CrushManager.mk ["a".data, "a".data]).isCrushed "a".data = true ∧
      ((CrushManager.mk ["a".data, "a".data]).toggle "a".data).2 = true ∧
      ((CrushManager.mk ["a".data, "a".data]).toggle "a".data).2 ≠
        !(CrushManager.mk ["a".data, "a".data]).isCrushed "a".data := by
  decide

/-- C9, amended: `toggle(id)` returns `isCrushed(id)` as it is after the call and
leaves the membership of every other identifier unchanged; when the list holds
no identifier twice, the returned value is the negation of `isCrushed(id)`
before the call. -/
theorem toggle_flips_membership (m : CrushManager) (id : Str) :
    (m.toggle id).2 = (m.toggle id).1.isCrushed id ∧
    (∀ other, other ≠ id → (m.toggle id).1.isCrushed other = m.isCrushed other) ∧
    (m.crushes.Nodup → (m.toggle id).2 = !m.isCrushed id) := by
  refine ⟨rfl, ?_, ?_⟩
  · intro other hne
    rw [Bool.eq_iff_iff, isCrushed_iff, isCrushed_iff]
    by_cases h : id ∈ m.crushes
    · rw [toggle_crushes_of_mem m id h]
      exact List.mem_erase_of_ne hne
    · rw [toggle_crushes_of_not_mem m id h]
      simp [hne]
  · intro hnd
    rw [toggle_snd]
    by_cases h : id ∈ m.crushes
    · have hb : m.isCrushed id = true := (isCrushed_iff m id).mpr h
      have ha : ¬ (m.toggle id).1.isCrushed id = true := by
        rw [isCrushed_iff, toggle_crushes_of_mem m id h]
        exact fun hmem => ((List.Nodup.mem_erase_iff hnd).mp hmem).1 rfl
      simp [hb, ha]
    · have hb : ¬ m.isCrushed id = true := fun hc => h ((isCrushed_iff m id).mp hc)
      have ha : (m.toggle id).1.isCrushed id = true := by
        rw [isCrushed_iff, toggle_crushes_of_not_mem m id h]
        simp
      simp [hb, ha]

/-- Witness of the amended C9: toggling `a` in the duplicate-free store `[a, b]`. -/
theorem toggle_flips_membership_witness :
    ((CrushManager.mk ["a".data, "b".data]).toggle "a".data).2 =
      !(CrushManager.mk ["a".data, "b".data]).isCrushed "a".data :=
  (toggle_flips_membership (CrushManager.mk ["a".data, "b".data]) "a".data).2.2 (by decide)

/-- C10: when the stored text parses to a value that is neither an array nor a
string (an object, a number, a boolean, `null`), `load()` returns that value as
the store instead of the empty array, and `isCrushed`, `toggle` and `getAll`
then raise an error. -/
theorem load_keeps_non_array_json (jsonParse : Str → Except Unit JsVal) (data : Str)
    (v : JsVal) (hdata : data ≠ []) (hparse : jsonParse data = Except.ok v)
    (hshape : v.isArrayOrString = false) (filename : Str) :
    CrushManager.load (Except.ok (some data)) jsonParse = v ∧
    isCrushedRaw (CrushManager.load (Except.ok (some data)) jsonParse) filename =
      Except.error () ∧
    toggleRaw (CrushManager.load (Except.ok (some data)) jsonParse) filename =
      Except.error () ∧
    getAllRaw (CrushManager.load (Except.ok (some data)) jsonParse) = Except.error () := by
  have hload : CrushManager.load (Except.ok (some data)) jsonParse = v := by
    cases data with
    | nil => exact absurd rfl hdata
    | cons c cs => simp [CrushManager.load, hparse]
  rw [hload]
  cases v <;> simp_all [JsVal.isArrayOrString, isCrushedRaw, toggleRaw, getAllRaw]

/-- Witness of C10, the stored text being an empty JSON object: the store is the parsed object, not the empty array,
and `isCrushed` raises. -/
theorem load_keeps_non_array_json_witness :
    CrushManager.load (Except.ok (some "\x7b\x7d".data)) parseEmptyObject = JsVal.obj [] ∧
      isCrushedRaw (CrushManager.load (Except.ok (some "\x7b\x7d".data)) parseEmptyObject)
        "a.png".data = Except.error () :=
  ⟨(load_keeps_non_array_json parseEmptyObject "\x7b\x7d".data (JsVal.obj []) (by decide) rfl rfl
      "a.png".data).1,
    (load_keeps_non_array_json parseEmptyObject "\x7b\x7d".data (JsVal.obj []) (by decide) rfl rfl
      "a.png".data).2.1⟩

/-! ## Normaliser lemmas -/

theorem replaceFirst_append_png (base : Str) (hdot : '.' ∉ base) :
    replaceFirst ".png".data [] (base ++ ".png".data) = base := by
  induction base with
  | nil => decide
  | cons c cs ih =>
    have hc : ¬ ('.' = c) := fun h => hdot (h ▸ List.mem_cons_self _ _)
    have hcs : '.' ∉ cs := fun h => hdot (List.mem_cons_of_mem _ h)
    simp [replaceFirst, List.isPrefixOf, hc, ih hcs]

theorem includes_cons_false {c : Char} {cs pat : Str} (h : includes (c :: cs) pat = false) :
    pat.isPrefixOf (c :: cs) = false ∧ includes cs pat = false := by
  simpa [includes] using h

theorem splitStrAux_cons_zero (sep cur : Str) (c : Char) (cs : Str) :
    splitStrAux sep 0 cur (c :: cs) =
      if sep.isPrefixOf (c :: cs) then cur.reverse :: splitStrAux sep (sep.length - 1) [] cs
      else splitStrAux sep 0 (c :: cur) cs := by
  rw [splitStrAux]

theorem splitStrAux_segment (s : Str) :
    ∀ cur : Str, includes s "__".data = false → s.getLast? ≠ some '_' →
      splitStrAux "__".data 0 cur s = [cur.reverse ++ s] ∧
      ∀ rest : Str, splitStrAux "__".data 0 cur (s ++ '_' :: '_' :: rest) =
        (cur.reverse ++ s) :: splitStrAux "__".data 0 [] rest := by
  induction s with
  | nil =>
    intro cur _ _
    refine ⟨by simp [splitStrAux], ?_⟩
    intro rest
    simp [splitStrAux, List.isPrefixOf]
  | cons c cs ih =>
    intro cur hinc hlast
    obtain ⟨hpre, hinc'⟩ := includes_cons_false hinc
    have hlast' : cs.getLast? ≠ some '_' := by
      cases cs with
      | nil => simp
      | cons d ds => simpa [List.getLast?_cons_cons] using hlast
    obtain ⟨ih1, ih2⟩ := ih (c :: cur) hinc' hlast'
    have hpre1 : ("__".data).isPrefixOf (c :: cs) = false := hpre
    have hpre2 : ∀ rest : Str,
        ("__".data).isPrefixOf (c :: (cs ++ '_' :: '_' :: rest)) = false := by
      intro rest
      cases cs with
      | nil =>
        have hc : ¬ (c = '_') := by
          intro h
          apply hlast
          simp [h]
        have hc' : ¬ ('_' = c) := fun h => hc h.symm
        simp [List.isPrefixOf, hc']
      | cons d ds =>
        simpa [List.isPrefixOf] using hpre1
    refine ⟨?_, ?_⟩
    · rw [splitStrAux_cons_zero, hpre1]
      simpa using ih1
    · intro rest
      have h2 := ih2 rest
      rw [List.cons_append, splitStrAux_cons_zero, hpre2 rest]
      simpa using h2

theorem mem_join {c : Char} {sep : Str} :
    ∀ ws : List Str, c ∈ join sep ws → c ∈ sep ∨ ∃ w ∈ ws, c ∈ w
  | [], h => by simp [join] at h
  | [w], h => Or.inr ⟨w, by simp, by simpa [join] using h⟩
  | w :: w' :: ws, h => by
    simp only [join, List.mem_append] at h
    rcases h with (h | h) | h
    · exact Or.inr ⟨w, by simp, h⟩
    · exact Or.inl h
    · rcases mem_join (w' :: ws) h with h' | ⟨v, hv, hc⟩
      · exact Or.inl h'
      · exact Or.inr ⟨v, List.mem_cons_of_mem _ hv, hc⟩

theorem splitStr_join :
    ∀ segs : List Str, segs ≠ [] → (∀ s ∈ segs, isSegment s) →
      splitStr "__".data (join "__".data segs) = segs
  | [], h, _ => absurd rfl h
  | [w], _, hseg => by
    have hw := hseg w (by simp)
    simpa [splitStr, join] using (splitStrAux_segment w [] hw.1 hw.2.1).1
  | w :: w' :: ws, _, hseg => by
    have hw := hseg w (by simp)
    have ih := splitStr_join (w' :: ws) (by simp)
      (fun s hs => hseg s (List.mem_cons_of_mem _ hs))
    have h2 := (splitStrAux_segment w [] hw.1 hw.2.1).2 (join "__".data (w' :: ws))
    simp only [splitStr] at ih ⊢
    have hjoin : join "__".data (w :: w' :: ws) =
        w ++ '_' :: '_' :: join "__".data (w' :: ws) := by
      simp [join]
    rw [hjoin, h2, ih]
    simp

theorem orDefault_getElem? (parts : List Str) (i : Nat) (dflt : Str) :
    orDefault parts[i]? dflt = if parts.getD i [] = [] then dflt else parts.getD i [] := by
  cases h : parts[i]? with
  | none => simp [orDefault, List.getD, h]
  | some seg =>
    cases seg with
    | nil => simp [orDefault, List.getD, h]
    | cons c cs => simp [orDefault, List.getD, h]

theorem splitChar_ne_nil (sep : Char) (s : Str) : splitChar sep s ≠ [] := by
  cases s with
  | nil => simp [splitChar]
  | cons c cs =>
    simp only [splitChar]
    split
    · simp
    · split <;> simp

theorem join_cons_cons (sep : Str) (c : Char) (w : Str) (ws : List Str) :
    join sep ((c :: w) :: ws) = c :: join sep (w :: ws) := by
  cases ws <;> simp [join]

theorem join_splitChar (sep : Char) (s : Str) : join [sep] (splitChar sep s) = s := by
  induction s with
  | nil => simp [splitChar, join]
  | cons c cs ih =>
    simp only [splitChar]
    split
    · rename_i h
      cases hsp : splitChar sep cs with
      | nil => exact absurd hsp (splitChar_ne_nil sep cs)
      | cons w ws =>
        rw [hsp] at ih
        simp [join, ih, h]
    · cases hsp : splitChar sep cs with
      | nil => exact absurd hsp (splitChar_ne_nil sep cs)
      | cons w ws =>
        rw [hsp] at ih
        simp [join_cons_cons, ih]

theorem not_mem_of_mem_splitChar (sep : Char) (s : Str) :
    ∀ piece ∈ splitChar sep s, sep ∉ piece := by
  induction s with
  | nil => simp [splitChar]
  | cons c cs ih =>
    intro piece hp
    simp only [splitChar] at hp
    split at hp
    · rcases List.mem_cons.mp hp with h | h
      · simp [h]
      · exact ih piece h
    · rename_i hc
      cases hsp : splitChar sep cs with
      | nil => exact absurd hsp (splitChar_ne_nil sep cs)
      | cons w ws =>
        rw [hsp] at hp ih
        rcases List.mem_cons.mp hp with h | h
        · rw [h]
          intro hmem
          rcases List.mem_cons.mp hmem with h1 | h1
          · exact hc h1.symm
          · exact ih w (by simp) h1
        · exact ih piece (List.mem_cons_of_mem _ h)

/-! ## The claims, continued -/

/-- C11, counterexample: in `A____styleY__t__0.png` the second segment is
present and empty, and `parseFilename` returns `Unknown` for the hook instead of
the segment. -/
theorem parseFilename_empty_segment_counterexample :
    (splitStr "__".data
        (replaceFirst ".png".data [] "A____styleY__t__0.png".data)).get? 1 = some [] ∧
      (parseFilename "A____styleY__t__0.png".data).hook = "Unknown".data ∧
      some (parseFilename "A____styleY__t__0.png".data).hook ≠
        (splitStr "__".data
          (replaceFirst ".png".data [] "A____styleY__t__0.png".data)).get? 1 := by
  decide

/-- C11, amended: `parseFilename` removes the first `.png` and splits the rest
on `__`; each of the five fields is the segment at its position when that
segment is present and not empty, and its default (`Unknown` for persona, hook
and style, the empty string for timestamp and index) when the segment is absent
or empty; later segments are not read.  For a name made of well-formed segments
joined by `__` and followed by `.png`, the segments read are those segments. -/
theorem parseFilename_segments (filename : Str) :
    (∀ i, i < 5 →
      (parseFilename filename).fields.getD i [] =
        if (splitStr "__".data (replaceFirst ".png".data [] filename)).getD i [] = [] then
          defaultFields.getD i []
        else (splitStr "__".data (replaceFirst ".png".data [] filename)).getD i []) ∧
    (∀ segs : List Str, segs ≠ [] → (∀ seg ∈ segs, isSegment seg) →
      filename = join "__".data segs ++ ".png".data →
        splitStr "__".data (replaceFirst ".png".data [] filename) = segs) := by
  refine ⟨?_, ?_⟩
  · intro i hi
    interval_cases i <;>
      simp [parseFilename, Metadata.fields, defaultFields, orDefault_getElem?]
  · intro segs hne hseg hname
    have hdot : '.' ∉ join "__".data segs := by
      intro hmem
      rcases mem_join segs hmem with h | ⟨w, hw, hc⟩
      · exact absurd h (by decide)
      · exact (hseg w hw).2.2 hc
    rw [hname, replaceFirst_append_png _ hdot, splitStr_join segs hne hseg]

/-- Witness of the amended C11: the name `A__hookX__styleY__t__0.png`. -/
theorem parseFilename_segments_witness :
    splitStr "__".data (replaceFirst ".png".data [] "A__hookX__styleY__t__0.png".data) =
      ["A".data, "hookX".data, "styleY".data, "t".data, "0".data] :=
  (parseFilename_segments "A__hookX__styleY__t__0.png".data).2
    ["A".data, "hookX".data, "styleY".data, "t".data, "0".data] (by decide) (by decide)
    (by decide)

/-- C12, counterexample: the text `Red,,Bold` has three comma-separated pieces,
the second one empty, and the record gets two tags. -/
theorem csv_empty_piece_counterexample :
    (normalizeEntry { entryOf "a.png" with tags := RawTags.csv "Red,,Bold".data }).tags =
        ["Red".data, "Bold".data] ∧
      (splitChar ',' "Red,,Bold".data).map trim = ["Red".data, [], "Bold".data] ∧
      (normalizeEntry { entryOf "a.png" with tags := RawTags.csv "Red,,Bold".data }).tags ≠
        (splitChar ',' "Red,,Bold".data).map trim := by
  decide

/-- C12, amended: for a non-empty comma-separated text the tags of the record
are the comma-separated pieces of the text, each trimmed, without the pieces
that are empty after trimming, in their original order and with case unchanged;
the pieces hold no comma and, joined by commas, give the text back.  For
`Red, Bold,  minimal` the tags are `Red`, `Bold`, `minimal`. -/
theorem csv_tags (item : RawEntry) (s : Str) (hs : s ≠ []) (htags : item.tags = RawTags.csv s) :
    (normalizeEntry item).tags =
        ((splitChar ',' s).map trim).filter (fun t => decide (t ≠ [])) ∧
      join [','] (splitChar ',' s) = s ∧
      (∀ piece ∈ splitChar ',' s, ',' ∉ piece) ∧
      (normalizeEntry { item with tags := RawTags.csv "Red, Bold,  minimal".data }).tags =
        ["Red".data, "Bold".data, "minimal".data] := by
  refine ⟨?_, join_splitChar ',' s, not_mem_of_mem_splitChar ',' s, ?_⟩
  · cases s with
    | nil => exact absurd rfl hs
    | cons c cs =>
      simp only [normalizeEntry, htags, resolveTags]
      apply List.filter_congr
      intro t _
      cases t <;> simp
  · simp only [normalizeEntry, resolveTags]
    decide

/-- Witness of the amended C12: the text `a, b`. -/
theorem csv_tags_witness :
    (normalizeEntry { entryOf "a.png" with tags := RawTags.csv "a, b".data }).tags =
      ((splitChar ',' "a, b".data).map trim).filter (fun t => decide (t ≠ [])) :=
  (csv_tags { entryOf "a.png" with tags := RawTags.csv "a, b".data } "a, b".data (by decide)
    rfl).1

/-! ### Lemmas on `uniqueInOrder` -/

theorem mem_uniqueInOrder (xs : List Str) (x : Str) : x ∈ uniqueInOrder xs ↔ x ∈ xs := by
  induction xs with
  | nil => simp [uniqueInOrder]
  | cons y ys ih =>
    simp only [uniqueInOrder, List.mem_cons, List.mem_filter, ih, bne_iff_ne, ne_eq]
    by_cases h : x = y <;> simp [h]

theorem nodup_uniqueInOrder (xs : List Str) : (uniqueInOrder xs).Nodup := by
  induction xs with
  | nil => simp [uniqueInOrder]
  | cons y ys ih =>
    rw [uniqueInOrder]
    refine List.nodup_cons.mpr ⟨?_, ih.filter _⟩
    simp [List.mem_filter]

theorem indexOf_cons_ne {x y : Str} {xs : List Str} (hne : x ≠ y) (hmem : y ∈ xs) :
    indexOf (x :: xs) y = indexOf xs y + 1 := by
  have hpos : indexOf xs y > -1 := (indexOf_gt_iff xs y).mpr hmem
  simp [indexOf, hne, hpos]

theorem uniqueInOrder_pairwise_indexOf (xs : List Str) :
    ((uniqueInOrder xs).map (indexOf xs)).Pairwise (fun i j => i < j) := by
  induction xs with
  | nil => simp [uniqueInOrder]
  | cons x xs ih =>
    have hfacts : ∀ y ∈ (uniqueInOrder xs).filter (fun y => y != x),
        indexOf (x :: xs) y = indexOf xs y + 1 ∧ indexOf xs y > -1 := by
      intro y hy
      rw [List.mem_filter, mem_uniqueInOrder] at hy
      have hne : x ≠ y := fun h => by simp [h] at hy
      exact ⟨indexOf_cons_ne hne hy.1, (indexOf_gt_iff xs y).mpr hy.1⟩
    simp only [uniqueInOrder, List.map_cons, List.pairwise_cons]
    refine ⟨?_, ?_⟩
    · intro b hb
      obtain ⟨y, hy, rfl⟩ := List.mem_map.mp hb
      have h0 : indexOf (x :: xs) x = 0 := by simp [indexOf]
      have := hfacts y hy
      omega
    · rw [List.pairwise_map] at ih ⊢
      have hs : ((uniqueInOrder xs).filter (fun y => y != x)).Sublist (uniqueInOrder xs) :=
        List.filter_sublist _
      have hsub := ih.sublist hs
      refine hsub.imp_of_mem ?_
      intro a b ha hb hab
      have h1 := hfacts a ha
      have h2 := hfacts b hb
      omega

/-- C13, counterexample: the text `x, ,y` has three split and trimmed pieces, the
middle one empty, and the record gets the two tags `x` and `y`; and the empty
text, which has the single empty piece, gives the synthesized tags of an entry
without tags. -/
theorem csv_branch_counterexample :
    (normalizeEntry { entryOf "a.png" with tags := RawTags.csv "x, ,y".data }).tags =
        ["x".data, "y".data] ∧
      (splitChar ',' "x, ,y".data).map trim = ["x".data, [], "y".data] ∧
      (normalizeEntry { entryOf "a.png" with tags := RawTags.csv [] }).tags =
        ["a".data, "Unknown".data, "copy".data, "available".data] ∧
      (splitChar ',' []).map trim = [[]] := by
  decide

/-- C13, amended: the tags of a record come from a fixed three-way fallback.  A non-empty
text gives its split and trimmed pieces (those that are not empty); otherwise a
non-empty array is taken as it is; otherwise (nothing, an empty array, an empty
text) the tags are the first 12 distinct strings, in order of first occurrence,
of the hyphen-separated words of persona, hook and style followed by the
keywords of the copy: no string twice, at most 12, each one from that list, in
the order of their first positions in it, and all of them when there are at most
12 distinct ones. -/
theorem resolveTags_fallback (item : RawEntry) :
    (∀ s : Str, s ≠ [] → item.tags = RawTags.csv s →
      (normalizeEntry item).tags =
        ((splitChar ',' s).map trim).filter (fun t => decide (t ≠ []))) ∧
    (∀ xs : List Str, xs ≠ [] → item.tags = RawTags.array xs →
      (normalizeEntry item).tags = xs) ∧
    ((item.tags = RawTags.absent ∨ item.tags = RawTags.array [] ∨ item.tags = RawTags.csv []) →
      (normalizeEntry item).tags = (uniqueInOrder (synthesisSource item)).take 12 ∧
      (normalizeEntry item).tags.Nodup ∧
      (normalizeEntry item).tags.length ≤ 12 ∧
      (∀ t ∈ (normalizeEntry item).tags, t ∈ synthesisSource item) ∧
      ((normalizeEntry item).tags.map (indexOf (synthesisSource item))).Pairwise
        (fun i j => i < j) ∧
      ((uniqueInOrder (synthesisSource item)).length ≤ 12 →
        ∀ t ∈ synthesisSource item, t ∈ (normalizeEntry item).tags)) := by
  refine ⟨?_, ?_, ?_⟩
  · intro s hs htags
    cases s with
    | nil => exact absurd rfl hs
    | cons c cs =>
      simp only [normalizeEntry, htags, resolveTags]
      apply List.filter_congr
      intro t _
      cases t <;> simp
  · intro xs hxs htags
    cases xs with
    | nil => exact absurd rfl hxs
    | cons x xs => simp [normalizeEntry, htags, resolveTags]
  · intro htags
    have heq : (normalizeEntry item).tags = (uniqueInOrder (synthesisSource item)).take 12 := by
      rcases htags with h | h | h <;>
        simp [normalizeEntry, h, resolveTags, synthesisSource, List.append_assoc]
    rw [heq]
    refine ⟨rfl, ?_, ?_, ?_, ?_, ?_⟩
    · exact (nodup_uniqueInOrder _).sublist (List.take_sublist _ _)
    · simp [List.length_take]
    · intro t ht
      exact (mem_uniqueInOrder _ _).mp (List.mem_of_mem_take ht)
    · rw [List.map_take]
      exact (uniqueInOrder_pairwise_indexOf _).sublist (List.take_sublist _ _)
    · intro hlen t ht
      rw [List.take_of_length_le hlen]
      exact (mem_uniqueInOrder _ _).mpr ht

/-- Witness of the amended C13: the entry `A__hookX__styleY__t__0` supplies no
tags and gets the words of its name followed by the keywords of the default
copy; the entry with the array `Red`, `Red` keeps it as it is. -/
theorem resolveTags_fallback_witness :
    (normalizeEntry (entryOf "A__hookX__styleY__t__0")).tags =
        ["A".data, "hookX".data, "styleY".data, "copy".data, "available".data] ∧
      (normalizeEntry
        { entryOf "a.png" with tags := RawTags.array ["Red".data, "Red".data] }).tags =
        ["Red".data, "Red".data] :=
  ⟨((resolveTags_fallback (entryOf "A__hookX__styleY__t__0")).2.2 (Or.inl rfl)).1.trans
      (by decide),
    (resolveTags_fallback
      { entryOf "a.png" with tags := RawTags.array ["Red".data, "Red".data] }).2.1
      ["Red".data, "Red".data] (by decide) rfl⟩

/-! ### Lemmas on the facet maps -/

theorem uniqueInOrder_concat (xs : List Str) (k : Str) :
    uniqueInOrder (xs ++ [k]) =
      if k ∈ xs then uniqueInOrder xs else uniqueInOrder xs ++ [k] := by
  induction xs with
  | nil => simp [uniqueInOrder]
  | cons x xs ih =>
    rw [List.cons_append, uniqueInOrder, uniqueInOrder, ih]
    by_cases hk : k = x
    · subst hk
      by_cases hm : k ∈ xs <;> simp [hm, List.filter_append]
    · by_cases hm : k ∈ xs <;> simp [hk, hm, List.filter_append]

theorem facetMap_concat (facet : Item → Str) (xs : List Item) (x : Item) :
    facetMap facet (xs ++ [x]) = facetAdd (facetMap facet xs) (facet x) := by
  simp [facetMap, List.foldl_append]

theorem find?_concat_of_mem (facet : Item → Str) (xs : List Item) (x : Item) (k : Str)
    (hk : k ∈ xs.map fun item => toLowerCase (facet item)) :
    (xs ++ [x]).find? (fun item => toLowerCase (facet item) == k) =
      xs.find? (fun item => toLowerCase (facet item) == k) := by
  obtain ⟨y, hy, hyk⟩ := List.mem_map.mp hk
  have hsome : (xs.find? (fun item => toLowerCase (facet item) == k)).isSome := by
    rw [List.find?_isSome]
    exact ⟨y, hy, by simp [hyk]⟩
  rw [List.find?_append]
  cases h : xs.find? (fun item => toLowerCase (facet item) == k) with
  | none => simp [h] at hsome
  | some v => simp

theorem find?_concat_of_not_mem (facet : Item → Str) (xs : List Item) (x : Item)
    (hk : toLowerCase (facet x) ∉ xs.map fun item => toLowerCase (facet item)) :
    (xs ++ [x]).find? (fun item => toLowerCase (facet item) == toLowerCase (facet x)) =
      some x := by
  have hnone : xs.find? (fun item => toLowerCase (facet item) == toLowerCase (facet x)) =
      none := by
    rw [List.find?_eq_none]
    intro y hy hyk
    exact hk (List.mem_map.mpr ⟨y, hy, by simpa using hyk⟩)
  rw [List.find?_append, hnone]
  simp

theorem countP_eq_zero_of_not_mem (facet : Item → Str) (xs : List Item) (k : Str)
    (hk : k ∉ xs.map fun item => toLowerCase (facet item)) :
    xs.countP (fun item => toLowerCase (facet item) == k) = 0 := by
  rw [List.countP_eq_zero]
  intro y hy hyk
  exact hk (List.mem_map.mpr ⟨y, hy, by simpa using hyk⟩)

theorem facetEntryOf_concat_self (facet : Item → Str) (xs : List Item) (x : Item)
    (hk : toLowerCase (facet x) ∈ xs.map fun item => toLowerCase (facet item)) :
    facetEntryOf facet (xs ++ [x]) (toLowerCase (facet x)) =
      { facetEntryOf facet xs (toLowerCase (facet x)) with
        count := (facetEntryOf facet xs (toLowerCase (facet x))).count + 1 } := by
  simp [facetEntryOf, find?_concat_of_mem facet xs x _ hk, List.countP_append]

theorem facetEntryOf_concat_other (facet : Item → Str) (xs : List Item) (x : Item) (k : Str)
    (hk : k ∈ xs.map fun item => toLowerCase (facet item)) (hne : k ≠ toLowerCase (facet x)) :
    facetEntryOf facet (xs ++ [x]) k = facetEntryOf facet xs k := by
  have hne' : ¬ toLowerCase (facet x) = k := fun h => hne h.symm
  simp [facetEntryOf, find?_concat_of_mem facet xs x _ hk, List.countP_append, hne']

theorem facetEntryOf_concat_new (facet : Item → Str) (xs : List Item) (x : Item)
    (hk : toLowerCase (facet x) ∉ xs.map fun item => toLowerCase (facet item)) :
    facetEntryOf facet (xs ++ [x]) (toLowerCase (facet x)) =
      { display := formatText (facet x), count := 1 } := by
  simp [facetEntryOf, find?_concat_of_not_mem facet xs x hk, List.countP_append,
    countP_eq_zero_of_not_mem facet xs _ hk]

theorem facetMap_eq (facet : Item → Str) (items : List Item) :
    facetMap facet items =
      (uniqueInOrder (items.map fun item => toLowerCase (facet item))).map
        fun k => (k, facetEntryOf facet items k) := by
  induction items using List.reverseRecOn with
  | nil => simp [facetMap, uniqueInOrder]
  | append_singleton xs x ih =>
    rw [facetMap_concat, ih, List.map_append, List.map_singleton, uniqueInOrder_concat]
    have hany : ((uniqueInOrder (xs.map fun item => toLowerCase (facet item))).map
        fun k => (k, facetEntryOf facet xs k)).any (fun e => e.1 == toLowerCase (facet x)) =
        decide (toLowerCase (facet x) ∈ xs.map fun item => toLowerCase (facet item)) := by
      rw [Bool.eq_iff_iff]
      simp only [List.any_eq_true, List.mem_map, beq_iff_eq, decide_eq_true_iff]
      constructor
      · rintro ⟨e, ⟨k, hk, rfl⟩, hke⟩
        have hk' := (mem_uniqueInOrder _ _).mp hk
        simp only at hke
        rw [← hke]
        exact List.mem_map.mp hk'
      · intro h
        have h' : toLowerCase (facet x) ∈ uniqueInOrder
            (xs.map fun item => toLowerCase (facet item)) :=
          (mem_uniqueInOrder _ _).mpr (List.mem_map.mpr h)
        exact ⟨_, ⟨_, h', rfl⟩, rfl⟩
    unfold facetAdd
    simp only [hany]
    by_cases hmem : toLowerCase (facet x) ∈ xs.map fun item => toLowerCase (facet item)
    · simp only [hmem, decide_True, if_true, bumpCount, List.map_map]
      apply List.map_congr_left
      intro k hk
      have hk' := (mem_uniqueInOrder _ _).mp hk
      by_cases hkx : k = toLowerCase (facet x)
      · subst hkx
        simp [facetEntryOf_concat_self facet xs x hmem]
      · simp [hkx, facetEntryOf_concat_other facet xs x k hk' hkx]
    · simp only [hmem, decide_False, if_false, bumpCount, List.map_append, List.map_map,
        List.map_singleton, Bool.false_eq_true]
      congr 1
      · apply List.map_congr_left
        intro k hk
        have hk' := (mem_uniqueInOrder _ _).mp hk
        have hkx : k ≠ toLowerCase (facet x) := fun h => hmem (h ▸ hk')
        simp [hkx, facetEntryOf_concat_other facet xs x k hk' hkx]
      · simp [facetEntryOf_concat_new facet xs x hmem]

theorem getUniqueMetadataMaps_fold (items : List Item) :
    ∀ p h s : FacetMap,
      items.foldl
          (fun maps item =>
            (facetAdd maps.1 item.persona, facetAdd maps.2.1 item.hook,
              facetAdd maps.2.2 item.style))
          (p, h, s) =
        (items.foldl (fun m item => facetAdd m item.persona) p,
          items.foldl (fun m item => facetAdd m item.hook) h,
          items.foldl (fun m item => facetAdd m item.style) s) := by
  induction items with
  | nil => intro p h s; rfl
  | cons x xs ih => intro p h s; simp only [List.foldl_cons, ih]

theorem getUniqueMetadata_eq_facetIndex (items : List Item) :
    getUniqueMetadata items =
      { personas := facetIndex Item.persona items
        hooks := facetIndex Item.hook items
        styles := facetIndex Item.style items } := by
  have hmaps : getUniqueMetadataMaps items =
      (facetMap Item.persona items, facetMap Item.hook items, facetMap Item.style items) :=
    getUniqueMetadataMaps_fold items [] [] []
  simp [getUniqueMetadata, hmaps, facetMap_eq, facetIndex, List.map_map, Function.comp_def]

theorem sum_indicator (L : List Str) (hnd : L.Nodup) (k0 : Str) (hk : k0 ∈ L) :
    (L.map fun k => if k0 = k then 1 else 0).sum = 1 := by
  induction L with
  | nil => simp at hk
  | cons a as ih =>
    have hnd' := List.nodup_cons.mp hnd
    by_cases ha : k0 = a
    · subst ha
      have hzero : (as.map fun k => if k0 = k then 1 else 0).sum = 0 := by
        apply List.sum_eq_zero
        intro v hv
        obtain ⟨k, hk1, rfl⟩ := List.mem_map.mp hv
        have : ¬ k0 = k := fun h => hnd'.1 (h ▸ hk1)
        simp [this]
      simp [hzero]
    · have hmem : k0 ∈ as := by
        rcases List.mem_cons.mp hk with h | h
        · exact absurd h ha
        · exact h
      simp [ha, ih hnd'.2 hmem]

theorem sum_countP_keys (key : Item → Str) (L : List Str) (hnd : L.Nodup) (items : List Item)
    (hall : ∀ item ∈ items, key item ∈ L) :
    (L.map fun k => items.countP (fun item => key item == k)).sum = items.length := by
  induction items with
  | nil => simp
  | cons x xs ih =>
    have hx : key x ∈ L := hall x (List.mem_cons_self _ _)
    have ih' := ih (fun item hi => hall item (List.mem_cons_of_mem _ hi))
    have hsplit : (L.map fun k => (x :: xs).countP (fun item => key item == k)) =
        L.map fun k => xs.countP (fun item => key item == k) + if key x = k then 1 else 0 := by
      apply List.map_congr_left
      intro k _
      rw [List.countP_cons]
      simp
    rw [hsplit, List.sum_map_add, ih', sum_indicator L hnd (key x) hx]
    simp

theorem sum_count_facetIndex (facet : Item → Str) (items : List Item) :
    ((facetIndex facet items).map FacetEntry.count).sum = items.length := by
  have h := sum_countP_keys (fun item => toLowerCase (facet item))
    (uniqueInOrder (items.map fun item => toLowerCase (facet item)))
    (nodup_uniqueInOrder _) items
    (fun item hi => (mem_uniqueInOrder _ _).mpr (List.mem_map.mpr ⟨item, hi, rfl⟩))
  simpa [facetIndex, facetEntryOf, List.map_map, Function.comp_def] using h

/-- C14: `getUniqueMetadata` returns, for persona, hook and style, the facet
index in closed form: one entry per distinct lowercased value, in order of first
occurrence; the count of an entry is the number of records with that lowercased
value, the counts of a facet add up to the number of records, and the display
value is `formatText` of the value of the first record with that key. -/
theorem getUniqueMetadata_facet_index (items : List Item) :
    getUniqueMetadata items =
        { personas := facetIndex Item.persona items
          hooks := facetIndex Item.hook items
          styles := facetIndex Item.style items } ∧
    ∀ facet : Item → Str,
      facetIndex facet items =
          (uniqueInOrder (items.map fun item => toLowerCase (facet item))).map
            (facetEntryOf facet items) ∧
        (uniqueInOrder (items.map fun item => toLowerCase (facet item))).Nodup ∧
        (∀ k, k ∈ uniqueInOrder (items.map fun item => toLowerCase (facet item)) ↔
          ∃ item ∈ items, toLowerCase (facet item) = k) ∧
        ((uniqueInOrder (items.map fun item => toLowerCase (facet item))).map
          (indexOf (items.map fun item => toLowerCase (facet item)))).Pairwise
            (fun i j => i < j) ∧
        (∀ k, (facetEntryOf facet items k).count =
          (items.filter fun item => toLowerCase (facet item) = k).length) ∧
        (∀ k first, items.find? (fun item => toLowerCase (facet item) == k) = some first →
          (facetEntryOf facet items k).display = formatText (facet first)) ∧
        ((facetIndex facet items).map FacetEntry.count).sum = items.length := by
  refine ⟨getUniqueMetadata_eq_facetIndex items, ?_⟩
  intro facet
  refine ⟨rfl, nodup_uniqueInOrder _, ?_, uniqueInOrder_pairwise_indexOf _, ?_, ?_,
    sum_count_facetIndex facet items⟩
  · intro k
    rw [mem_uniqueInOrder, List.mem_map]
  · intro k
    simp only [facetEntryOf, List.countP_eq_length_filter]
    congr 1
    apply List.filter_congr
    intro item _
    rw [Bool.eq_iff_iff]
    simp
  · intro k first hfirst
    simp [facetEntryOf, hfirst]

/-- Witness of C14: the style facet of the sample catalog. -/
theorem getUniqueMetadata_facet_index_witness :
    (getUniqueMetadata sampleCatalog).styles =
      [{ display := "StyleY".data, count := 2 }, { display := "StyleZ".data, count := 1 }] := by
  rw [(getUniqueMetadata_facet_index sampleCatalog).1]
  decide

/-- C15: for the single record tagged `constructor`, `getTopTags` reports neither
the count `1` nor the tag: the count is the text of the inherited `Object`
function followed by `1`, and the tag shown is that function.  For the tag
`__proto__` no entry is reported. -/
theorem getTopTags_inherited_key :
    getTopTags [itemWithTags "a.png" ["constructor"]] 15 =
        [{ tag := DisplayVal.objectFunction, count := CountVal.functionText 1 }] ∧
      getTopTags [itemWithTags "a.png" ["__proto__"]] 15 = [] := by
  decide

/-- C16: the tag `sale` is met before the tag `2025`, both once, and
`getTopTags` lists `2025` first: `Object.entries` enumerates array-index keys
before the other keys. -/
theorem getTopTags_index_key_first :
    getTopTags [itemWithTags "a.png" ["sale"], itemWithTags "b.png" ["2025"]] 15 =
      [{ tag := DisplayVal.tag "2025".data, count := CountVal.num 1 },
        { tag := DisplayVal.tag "sale".data, count := CountVal.num 1 }] := by
  decide

/-! ### Pagination lemmas -/

theorem renderGalleryProgressive_currentItems (s : PageState) :
    (renderGalleryProgressive s).currentItems = s.currentItems := by
  unfold renderGalleryProgressive
  split <;> rfl

theorem renderGalleryProgressive_displayedCount (s : PageState) :
    (renderGalleryProgressive s).displayedCount =
      if s.currentItems.length = 0 then s.displayedCount
      else min (s.displayedCount + 12) s.currentItems.length := by
  unfold renderGalleryProgressive
  split <;> simp [ITEMS_PER_PAGE]

theorem renderGalleryProgressive_le (s : PageState)
    (h : s.displayedCount ≤ s.currentItems.length) :
    (renderGalleryProgressive s).displayedCount ≤
        (renderGalleryProgressive s).currentItems.length ∧
      s.displayedCount ≤ (renderGalleryProgressive s).displayedCount := by
  rw [renderGalleryProgressive_currentItems, renderGalleryProgressive_displayedCount]
  split <;> omega

theorem renderGalleryProgressive_reset (s : PageState) (items : List Item) :
    (renderGalleryProgressive { s with currentItems := items, displayedCount := 0 }).currentItems =
        items ∧
      (renderGalleryProgressive
        { s with currentItems := items, displayedCount := 0 }).displayedCount =
        min 12 items.length := by
  rw [renderGalleryProgressive_currentItems, renderGalleryProgressive_displayedCount]
  refine ⟨rfl, ?_⟩
  simp only
  split <;> omega

theorem renderGalleryProgressive_reset_le (s : PageState) (items : List Item) :
    (renderGalleryProgressive
        { s with currentItems := items, displayedCount := 0 }).displayedCount ≤
      (renderGalleryProgressive
        { s with currentItems := items, displayedCount := 0 }).currentItems.length := by
  obtain ⟨h1, h2⟩ := renderGalleryProgressive_reset s items
  rw [h1, h2]
  exact Nat.min_le_right _ _

theorem apply_invariant (s : PageState) (a : PageAction)
    (h : s.displayedCount ≤ s.currentItems.length) :
    (a.apply s).displayedCount ≤ (a.apply s).currentItems.length := by
  cases a with
  | filterAndRender allData crushes search st =>
    exact renderGalleryProgressive_reset_le s (visibleItems allData crushes search st)
  | renderGallery items => exact renderGalleryProgressive_reset_le s items
  | loadMoreItems => exact (renderGalleryProgressive_le s h).1
  | observerIntersects =>
    simp only [PageAction.apply]
    split
    · exact (renderGalleryProgressive_le s h).1
    · exact h

theorem initGallery_invariant (allData : List Item) :
    (initGallery allData).displayedCount ≤ (initGallery allData).currentItems.length := by
  exact renderGalleryProgressive_reset_le { initialPage with currentItems := allData } allData

theorem runActions_invariant (actions : List PageAction) :
    ∀ s : PageState, s.displayedCount ≤ s.currentItems.length →
      (runActions s actions).displayedCount ≤ (runActions s actions).currentItems.length := by
  induction actions with
  | nil => intro s h; exact h
  | cons a as ih =>
    intro s h
    exact ih (a.apply s) (apply_invariant s a h)

/-- C17: in every state reached from `initGallery` by any sequence of
`filterAndRender`, `renderGallery`, `loadMoreItems` and observer callbacks,
`displayedCount` is at most `currentItems.length`; a `loadMoreItems` step, by
the button or by the observer, keeps `currentItems` and does not lower
`displayedCount`. -/
theorem pagination_invariant (allData : List Item) (actions : List PageAction) :
    (runActions (initGallery allData) actions).displayedCount ≤
        (runActions (initGallery allData) actions).currentItems.length ∧
      (runActions (initGallery allData) actions).displayedCount ≤
        (PageAction.loadMoreItems.apply
          (runActions (initGallery allData) actions)).displayedCount ∧
      (PageAction.loadMoreItems.apply (runActions (initGallery allData) actions)).currentItems =
        (runActions (initGallery allData) actions).currentItems ∧
      (runActions (initGallery allData) actions).displayedCount ≤
        (PageAction.observerIntersects.apply
          (runActions (initGallery allData) actions)).displayedCount ∧
      (PageAction.observerIntersects.apply
          (runActions (initGallery allData) actions)).currentItems =
        (runActions (initGallery allData) actions).currentItems := by
  have hinv := runActions_invariant actions (initGallery allData) (initGallery_invariant allData)
  refine ⟨hinv, (renderGalleryProgressive_le _ hinv).2,
    renderGalleryProgressive_currentItems _, ?_, ?_⟩
  · simp only [PageAction.apply]
    split
    · exact (renderGalleryProgressive_le _ hinv).2
    · exact Nat.le_refl _
  · simp only [PageAction.apply]
    split
    · exact renderGalleryProgressive_currentItems _
    · rfl

/-- C18: on a non-empty visible set `loadMoreItems` sets `displayedCount` to
`min(displayedCount + 12, currentItems.length)` and keeps `currentItems`; the
"View More" button is rendered by that call exactly when the new
`displayedCount` is below `currentItems.length`; and when the new
`displayedCount` equals `currentItems.length`, a further `loadMoreItems` leaves
it unchanged and renders no button. -/
theorem loadMoreItems_reveals (currentTab : Tab) (s : PageState) (hne : s.currentItems ≠ []) :
    (loadMoreItems s).displayedCount = min (s.displayedCount + 12) s.currentItems.length ∧
      (loadMoreItems s).currentItems = s.currentItems ∧
      ((renderedView currentTab s).hasViewMore = true ↔
        (loadMoreItems s).displayedCount < s.currentItems.length) ∧
      ((loadMoreItems s).displayedCount = s.currentItems.length →
        (renderedView currentTab s).hasViewMore = false ∧
        (loadMoreItems (loadMoreItems s)).displayedCount = (loadMoreItems s).displayedCount ∧
        (renderedView currentTab (loadMoreItems s)).hasViewMore = false) := by
  have hlen : s.currentItems.length ≠ 0 := fun h => hne (List.length_eq_zero.mp h)
  have hd : (loadMoreItems s).displayedCount =
      min (s.displayedCount + 12) s.currentItems.length := by
    simp [loadMoreItems, renderGalleryProgressive_displayedCount, hlen]
  have hc : (loadMoreItems s).currentItems = s.currentItems :=
    renderGalleryProgressive_currentItems s
  have hview : ∀ t : PageState, t.currentItems.length ≠ 0 →
      ((renderedView currentTab t).hasViewMore = true ↔
        min (t.displayedCount + 12) t.currentItems.length < t.currentItems.length) := by
    intro t ht
    simp only [renderedView, ht, if_false, ITEMS_PER_PAGE]
    split <;> simp_all [GalleryView.hasViewMore]
  refine ⟨hd, hc, ?_, ?_⟩
  · rw [hview s hlen, hd]
  · intro hfull
    have hlen' : (loadMoreItems s).currentItems.length ≠ 0 := by rw [hc]; exact hlen
    refine ⟨?_, ?_, ?_⟩
    · have := hview s hlen
      rw [← hd, hfull] at this
      cases hv : (renderedView currentTab s).hasViewMore
      · rfl
      · exact absurd (this.mp hv) (Nat.lt_irrefl _)
    · have h2 : (loadMoreItems (loadMoreItems s)).displayedCount =
          min ((loadMoreItems s).displayedCount + 12) (loadMoreItems s).currentItems.length := by
        simp [loadMoreItems, renderGalleryProgressive_displayedCount,
          renderGalleryProgressive_currentItems, hlen]
      rw [h2, hc, hfull]
      omega
    · have := hview (loadMoreItems s) hlen'
      rw [hc, hfull] at this
      cases hv : (renderedView currentTab (loadMoreItems s)).hasViewMore
      · rfl
      · have h3 := this.mp hv
        omega

/-- Witness of C18: the first page of the three-record sample catalog. -/
theorem loadMoreItems_reveals_witness :
    (loadMoreItems { currentItems := sampleCatalog, displayedCount := 0 }).displayedCount =
      min (0 + 12) sampleCatalog.length :=
  (loadMoreItems_reveals Tab.all { currentItems := sampleCatalog, displayedCount := 0 }
    (by decide)).1

/-- C19: whatever `currentItems` and `displayedCount` were before, after
`filterAndRender` the list `currentItems` is the output of the pipeline and
`displayedCount` is the page size 12 clamped to its length. -/
theorem filterAndRender_restarts (s : PageState) (allData : List Item) (crushes : List Str)
    (search : Engine) (st : FilterState) :
    ((PageAction.filterAndRender allData crushes search st).apply s).currentItems =
        visibleItems allData crushes search st ∧
      ((PageAction.filterAndRender allData crushes search st).apply s).displayedCount =
        min 12 (visibleItems allData crushes search st).length ∧
      (PageAction.filterAndRender allData crushes search st).apply s =
        filterAndRender allData crushes search st := by
  have h := renderGalleryProgressive_reset s (visibleItems allData crushes search st)
  exact ⟨h.1, h.2, rfl⟩

/-! ### The Favorites tab -/

theorem visibleItems_favoritesOnly (allData : List Item) (crushes : List Str)
    (search : Engine) :
    visibleItems allData crushes search favoritesOnly =
      allData.filter (fun item => crushes.contains item.filename) := by
  simp [visibleItems, favoritesOnly, noFilter, tabStage_crushes, perfectStage_off,
    metadataStages, metadataStage_nil, tagStage_nil, trim, searchStage_empty]

theorem visibleItems_sublist_tabStage (allData : List Item) (crushes : List Str)
    (search : Engine) (st : FilterState) :
    (visibleItems allData crushes search st).Sublist (tabStage st.currentTab crushes allData) :=
  (((tagStage_sublist _ _).trans (metadataStages_sublist _ _)).trans
    (searchStage_sublist _ _ _)).trans (perfectStage_sublist _ _)

/-- C20: on the Favorites tab every visible record is a catalog record whose
filename is in the favourites list; with no other filter the visible records
are exactly the catalog records whose filename is in the favourites list; and
the visible set depends on the favourites list only through the filenames of
catalog records, so a favourite that names no catalog record adds nothing. -/
theorem favorites_tab_membership (allData : List Item) (m : CrushManager) (search : Engine)
    (st : FilterState) (item : Item) :
    (st.currentTab = Tab.crushes → item ∈ visibleItems allData m.getAll search st →
      item ∈ allData ∧ item.filename ∈ m.getAll) ∧
    (item ∈ visibleItems allData m.getAll search favoritesOnly ↔
      item ∈ allData ∧ item.filename ∈ m.getAll) ∧
    (∀ crushes : List Str,
      (∀ r ∈ allData, r.filename ∈ crushes ↔ r.filename ∈ m.getAll) →
        visibleItems allData crushes search st = visibleItems allData m.getAll search st) := by
  refine ⟨?_, ?_, ?_⟩
  · intro htab hmem
    have h := (visibleItems_sublist_tabStage allData m.getAll search st).subset hmem
    rw [htab, tabStage_crushes, List.mem_filter] at h
    exact ⟨h.1, by simpa using h.2⟩
  · rw [visibleItems_favoritesOnly, List.mem_filter]
    simp
  · intro crushes hsame
    have htab : tabStage st.currentTab crushes allData =
        tabStage st.currentTab m.getAll allData := by
      cases st.currentTab with
      | all => simp [tabStage_all]
      | crushes =>
        rw [tabStage_crushes, tabStage_crushes]
        apply List.filter_congr
        intro r hr
        rw [Bool.eq_iff_iff]
        simpa using hsame r hr
    simp only [visibleItems, htab]

/-- Witness of C20: `b.png` and the unknown `zzz.png` are favourites. -/
theorem favorites_tab_membership_witness :
    visibleItems twoItems ["zzz.png".data, "b.png".data] (constEngine []) favoritesOnly =
      visibleItems twoItems (CrushManager.mk ["b.png".data]).getAll (constEngine [])
        favoritesOnly :=
  (favorites_tab_membership twoItems (CrushManager.mk ["b.png".data]) (constEngine [])
    favoritesOnly (itemWithTags "b.png" [])).2.2 ["zzz.png".data, "b.png".data] (by decide)

/-! ## The claims, last part -/

theorem trim_eq_nil_of_all_space (v : Str) (h : ∀ c ∈ v, isJsSpace c = true) : trim v = [] := by
  have hd : v.dropWhile isJsSpace = [] := List.dropWhile_eq_nil_iff.mpr h
  simp [trim, hd]

/-- C21: with a non-empty trimmed query, a record survives the search stage
exactly when it is in the working set and its filename is the filename of some
record of the engine's result for the trimmed query; with an empty or
whitespace-only search box the stage returns the working set whatever the engine
is. -/
theorem searchStage_membership (search : Engine) (searchValue : Str) (items : List Item)
    (item : Item) :
    (trim searchValue ≠ [] →
      (item ∈ searchStage search (trim searchValue) items ↔
        item ∈ items ∧ ∃ r ∈ search (trim searchValue), r.filename = item.filename)) ∧
    ((∀ c ∈ searchValue, isJsSpace c = true) →
      ∀ other : Engine, searchStage other (trim searchValue) items = items) := by
  refine ⟨?_, ?_⟩
  · intro hq
    rw [searchStage_query search _ hq, List.mem_filter]
    simp
  · intro hsp other
    rw [trim_eq_nil_of_all_space searchValue hsp, searchStage_empty]

/-- Witness of C21: the query ` b ` against an engine that returns `b.png`. -/
theorem searchStage_membership_witness :
    itemWithTags "b.png" [] ∈
      searchStage (constEngine [itemWithTags "b.png" []]) (trim " b ".data) twoItems :=
  ((searchStage_membership (constEngine [itemWithTags "b.png" []]) " b ".data twoItems
      (itemWithTags "b.png" [])).1 (by decide)).mpr (by decide)

theorem visibleItems_sublist (allData : List Item) (crushes : List Str) (search : Engine)
    (st : FilterState) : (visibleItems allData crushes search st).Sublist allData :=
  (visibleItems_sublist_tabStage allData crushes search st).trans (tabStage_sublist _ _ _)

/-- C22: the visible set is a sub-list of the catalog: every visible record is a
catalog record, no record occurs more often than in the catalog, and every
stage, the search stage included, returns a sub-list of the list it receives,
so it keeps the relative order of the records. -/
theorem stages_only_narrow (allData : List Item) (crushes : List Str) (search : Engine)
    (st : FilterState) :
    (visibleItems allData crushes search st).Sublist allData ∧
    (∀ item ∈ visibleItems allData crushes search st, item ∈ allData) ∧
    (∀ item, (visibleItems allData crushes search st).count item ≤ allData.count item) ∧
    (∀ items : List Item,
      (tabStage st.currentTab crushes items).Sublist items ∧
      (perfectStage st.perfectModeActive items).Sublist items ∧
      (searchStage search (trim st.searchValue) items).Sublist items ∧
      (metadataStage Item.persona st.activePersonaFilters items).Sublist items ∧
      (metadataStage Item.hook st.activeHookFilters items).Sublist items ∧
      (metadataStage Item.style st.activeStyleFilters items).Sublist items ∧
      (tagStage st.activeTagFilters items).Sublist items) := by
  have hsub := visibleItems_sublist allData crushes search st
  refine ⟨hsub, fun item h => hsub.subset h, fun item => hsub.count_le item, ?_⟩
  intro items
  exact ⟨tabStage_sublist _ _ _, perfectStage_sublist _ _, searchStage_sublist _ _ _,
    metadataStage_sublist _ _ _, metadataStage_sublist _ _ _, metadataStage_sublist _ _ _,
    tagStage_sublist _ _⟩

/-- Witness of C22: the Favorites tab of the two-record catalog. -/
theorem stages_only_narrow_witness :
    (visibleItems twoItems ["b.png".data] (constEngine []) favoritesOnly).Sublist twoItems :=
  (stages_only_narrow twoItems ["b.png".data] (constEngine []) favoritesOnly).1

/-- C23: after `clearAllFilters`, from any state, the search box is empty, the
tag, persona, hook and style sets are empty, perfect mode is off, and
`hasActiveFilters` returns `false`; the tab is the one it was. -/
theorem clearAllFilters_resets (st : FilterState) :
    (clearAllFilters st).searchValue = [] ∧
    (clearAllFilters st).activeTagFilters = [] ∧
    (clearAllFilters st).activePersonaFilters = [] ∧
    (clearAllFilters st).activeHookFilters = [] ∧
    (clearAllFilters st).activeStyleFilters = [] ∧
    (clearAllFilters st).perfectModeActive = false ∧
    hasActiveFilters (clearAllFilters st) = false ∧
    (clearAllFilters st).currentTab = st.currentTab := by
  refine ⟨rfl, rfl, rfl, rfl, rfl, rfl, ?_, rfl⟩
  simp [hasActiveFilters, clearAllFilters, trim]

theorem erase_eq_filter_of_nodup (l : List Str) (a : Str) (hnd : l.Nodup) :
    l.erase a = l.filter (fun x => x != a) := by
  induction l with
  | nil => rfl
  | cons x xs ih =>
    have hnd' := List.nodup_cons.mp hnd
    by_cases hx : x = a
    · subst hx
      have hall : xs.filter (fun y => y != x) = xs := by
        rw [List.filter_eq_self]
        intro y hy
        have : y ≠ x := fun h => hnd'.1 (h ▸ hy)
        simpa using this
      simp [hall]
    · rw [List.erase_cons_tail (by simpa using hx), ih hnd'.2]
      simp [hx]

/-- C24: `getAll` is the list in insertion order.  After `toggle(id)` for an
`id` that is not in the list, `getAll()` is the list followed by `id`; for an
`id` in a duplicate-free list, `getAll()` is the list without `id`, the other
identifiers in their former order. -/
theorem getAll_insertion_order (m : CrushManager) (id : Str) :
    (id ∉ m.getAll → (m.toggle id).1.getAll = m.getAll ++ [id]) ∧
    (m.getAll.Nodup → id ∈ m.getAll →
      (m.toggle id).1.getAll = m.getAll.filter (fun x => x != id) ∧
      id ∉ (m.toggle id).1.getAll ∧
      (m.toggle id).1.getAll.Sublist m.getAll) := by
  refine ⟨?_, ?_⟩
  · intro h
    exact toggle_crushes_of_not_mem m id h
  · intro hnd h
    have heq : (m.toggle id).1.getAll = m.getAll.filter (fun x => x != id) := by
      have := toggle_crushes_of_mem m id h
      simp only [CrushManager.getAll] at *
      rw [this, erase_eq_filter_of_nodup _ _ hnd]
    refine ⟨heq, ?_, ?_⟩
    · rw [heq]
      simp
    · rw [heq]
      exact List.filter_sublist _

/-- Witness of C24: `c` is added to `[a, b]` at the end, `a` is removed from it. -/
theorem getAll_insertion_order_witness :
    ((CrushManager.mk ["a".data, "b".data]).toggle "c".data).1.getAll =
        (CrushManager.mk ["a".data, "b".data]).getAll ++ ["c".data] ∧
      ((CrushManager.mk ["a".data, "b".data]).toggle "a".data).1.getAll =
        (CrushManager.mk ["a".data, "b".data]).getAll.filter (fun x => x != "a".data) :=
  ⟨(getAll_insertion_order (CrushManager.mk ["a".data, "b".data]) "c".data).1 (by decide),
    ((getAll_insertion_order (CrushManager.mk ["a".data, "b".data]) "a".data).2 (by decide)
      (by decide)).1⟩

/-! ### Keyword extraction -/

theorem toLower_toLower (c : Char) : (Char.toLower c).toLower = Char.toLower c := by
  by_cases h : 65 ≤ c.toNat ∧ c.toNat ≤ 90
  · have hc : c = Char.ofNat c.toNat := (Char.ofNat_toNat c).symm
    obtain ⟨h1, h2⟩ := h
    generalize c.toNat = n at hc h1 h2
    subst hc
    interval_cases n <;> decide
  · have hsame : Char.toLower c = c := by
      unfold Char.toLower
      simp only [ge_iff_le]
      rw [if_neg h]
    rw [hsame, hsame]

theorem toLowerCase_idem (s : Str) : toLowerCase (toLowerCase s) = toLowerCase s := by
  simp [toLowerCase, List.map_map, Function.comp_def, toLower_toLower]

theorem toLowerCase_eq_self_of_subset (w s : Str) (h : ∀ c ∈ w, c ∈ toLowerCase s) :
    toLowerCase w = w := by
  unfold toLowerCase
  conv_rhs => rw [← List.map_id w]
  apply List.map_congr_left
  intro c hc
  obtain ⟨d, _, hd⟩ := List.mem_map.mp (h c hc)
  rw [← hd, toLower_toLower]
  rfl

theorem splitNonWordAux_chars (s : Str) :
    ∀ (b : Bool) (w : Str), w ∈ splitNonWordAux b s →
      ∀ c ∈ w, c ∈ s ∧ isWordChar c = true := by
  induction s with
  | nil =>
    intro b w hw c hc
    simp only [splitNonWordAux, List.mem_singleton] at hw
    subst hw
    simp at hc
  | cons d ds ih =>
    intro b w hw c hc
    simp only [splitNonWordAux] at hw
    by_cases hd : isWordChar d = true
    · simp only [hd, if_true] at hw
      cases hsp : splitNonWordAux false ds with
      | nil =>
        rw [hsp] at hw
        simp only [List.mem_singleton] at hw
        subst hw
        simp only [List.mem_singleton] at hc
        subst hc
        exact ⟨List.mem_cons_self _ _, hd⟩
      | cons v vs =>
        rw [hsp] at hw
        rcases List.mem_cons.mp hw with h | h
        · subst h
          rcases List.mem_cons.mp hc with h1 | h1
          · subst h1
            exact ⟨List.mem_cons_self _ _, hd⟩
          · have := ih false v (by rw [hsp]; exact List.mem_cons_self _ _) c h1
            exact ⟨List.mem_cons_of_mem _ this.1, this.2⟩
        · have := ih false w (by rw [hsp]; exact List.mem_cons_of_mem _ h) c hc
          exact ⟨List.mem_cons_of_mem _ this.1, this.2⟩
    · simp only [hd, if_false, Bool.false_eq_true] at hw
      cases b with
      | true =>
        simp only [if_true] at hw
        have := ih true w hw c hc
        exact ⟨List.mem_cons_of_mem _ this.1, this.2⟩
      | false =>
        simp only [Bool.false_eq_true, if_false] at hw
        rcases List.mem_cons.mp hw with h | h
        · subst h
          simp at hc
        · have := ih true w h c hc
          exact ⟨List.mem_cons_of_mem _ this.1, this.2⟩

theorem splitNonWordAux_join (s : Str) :
    ∀ b : Bool, (splitNonWordAux b s).flatten = s.filter isWordChar := by
  induction s with
  | nil => intro b; simp [splitNonWordAux]
  | cons d ds ih =>
    intro b
    simp only [splitNonWordAux]
    by_cases hd : isWordChar d = true
    · simp only [hd, if_true, List.filter_cons_of_pos]
      cases hsp : splitNonWordAux false ds with
      | nil =>
        have := ih false
        rw [hsp] at this
        simp [← this]
      | cons v vs =>
        have := ih false
        rw [hsp] at this
        simp [← this]
    · simp only [hd, if_false, Bool.false_eq_true]
      cases b with
      | true => simp [ih true, hd]
      | false => simp [ih true, hd]

theorem toLower_not_upper (c : Char) : isAsciiUpper (Char.toLower c) = false := by
  by_cases h : 65 ≤ c.toNat ∧ c.toNat ≤ 90
  · have hc : c = Char.ofNat c.toNat := (Char.ofNat_toNat c).symm
    obtain ⟨h1, h2⟩ := h
    generalize c.toNat = n at hc h1 h2
    subst hc
    interval_cases n <;> decide
  · have hsame : Char.toLower c = c := by
      unfold Char.toLower
      simp only [ge_iff_le]
      rw [if_neg h]
    rw [hsame, Bool.eq_false_iff]
    intro hu
    simp only [isAsciiUpper, Bool.and_eq_true, decide_eq_true_iff] at hu
    exact h hu

theorem toLowerCase_not_upper (s : Str) : ∀ c ∈ toLowerCase s, isAsciiUpper c = false := by
  intro c hc
  obtain ⟨d, _, hd⟩ := List.mem_map.mp hc
  rw [← hd]
  exact toLower_not_upper d

theorem isLowerWordChar_of_word (c : Char) (hw : isWordChar c = true)
    (hu : isAsciiUpper c = false) : isLowerWordChar c = true := by
  have hu' : c.toNat < 65 ∨ 90 < c.toNat := by
    by_contra hcon
    have h1 : 65 ≤ c.toNat ∧ c.toNat ≤ 90 := by omega
    have h2 : isAsciiUpper c = true := by simp [isAsciiUpper, h1]
    rw [hu] at h2
    exact Bool.false_ne_true h2
  simp only [isWordChar, Bool.or_eq_true, Bool.and_eq_true, decide_eq_true_iff] at hw
  simp only [isLowerWordChar, Bool.or_eq_true, Bool.and_eq_true, decide_eq_true_iff]
  omega

theorem splitNonWordAux_ne_nil (b : Bool) (s : Str) : splitNonWordAux b s ≠ [] := by
  induction s generalizing b with
  | nil => simp [splitNonWordAux]
  | cons c cs ih =>
    simp only [splitNonWordAux]
    split
    · split <;> simp
    · split
      · exact ih true
      · simp

theorem splitNonWordAux_word_run (w : Str) (hw : ∀ c ∈ w, isWordChar c = true) :
    ∀ (b : Bool) (tail t : Str) (ts : List Str), splitNonWordAux false tail = t :: ts →
      (w ≠ [] ∨ b = false) → splitNonWordAux b (w ++ tail) = (w ++ t) :: ts := by
  induction w with
  | nil =>
    intro b tail t ts ht hb
    rcases hb with hb | hb
    · exact absurd rfl hb
    · subst hb
      simpa using ht
  | cons c cs ih =>
    intro b tail t ts ht _
    have hc : isWordChar c = true := hw c (List.mem_cons_self _ _)
    have ih' := ih (fun d hd => hw d (List.mem_cons_of_mem _ hd)) false tail t ts ht
      (Or.inr rfl)
    rw [List.cons_append, splitNonWordAux, if_pos hc, ih']
    rfl

theorem splitNonWordAux_sep_run (r : Str) (hr : ∀ c ∈ r, isWordChar c = false) (tail : Str) :
    splitNonWordAux true (r ++ tail) = splitNonWordAux true tail := by
  induction r with
  | nil => rfl
  | cons c cs ih =>
    have hc : isWordChar c = false := hr c (List.mem_cons_self _ _)
    have hc' : ¬ isWordChar c = true := by simp [hc]
    rw [List.cons_append, splitNonWordAux, if_neg hc', if_pos rfl]
    exact ih (fun d hd => hr d (List.mem_cons_of_mem _ hd))

theorem splitNonWordAux_flag (tail : Str)
    (h : ∀ c, tail.head? = some c → isWordChar c = true) :
    splitNonWordAux true tail = splitNonWordAux false tail := by
  cases tail with
  | nil => simp [splitNonWordAux]
  | cons c cs =>
    have hc : isWordChar c = true := h c rfl
    simp only [splitNonWordAux, hc, if_true]

theorem splitNonWord_word (w : Str) (hw : ∀ c ∈ w, isWordChar c = true) :
    splitNonWord w = [w] := by
  have h := splitNonWordAux_word_run w hw false [] [] [] (by simp [splitNonWordAux])
    (Or.inr rfl)
  simpa [splitNonWord] using h

theorem splitNonWord_run (w r rest : Str) (hw : ∀ c ∈ w, isWordChar c = true)
    (hne : r ≠ []) (hr : ∀ c ∈ r, isWordChar c = false)
    (hrest : ∀ c, rest.head? = some c → isWordChar c = true) :
    splitNonWord (w ++ r ++ rest) = w :: splitNonWord rest := by
  cases r with
  | nil => exact absurd rfl hne
  | cons d ds =>
    have hd : isWordChar d = false := hr d (List.mem_cons_self _ _)
    have htail : splitNonWordAux false ((d :: ds) ++ rest) =
        [] :: splitNonWordAux false rest := by
      have hd' : ¬ isWordChar d = true := by simp [hd]
      rw [List.cons_append, splitNonWordAux, if_neg hd', if_neg (by simp),
        splitNonWordAux_sep_run ds (fun c hc => hr c (List.mem_cons_of_mem _ hc)) rest,
        splitNonWordAux_flag rest hrest]
    have h := splitNonWordAux_word_run w hw false ((d :: ds) ++ rest) []
      (splitNonWordAux false rest) htail (Or.inr rfl)
    simpa [splitNonWord, List.append_assoc] using h

theorem extractKeywordsWith_props (lower : Str → Str)
    (hlower : ∀ s : Str, ∀ c ∈ lower s, isAsciiUpper c = false) (text : Str) :
    (extractKeywordsWith lower text).Sublist (splitNonWord (lower text)) ∧
    (extractKeywordsWith lower text).length ≤ 15 ∧
    ∀ w ∈ extractKeywordsWith lower text,
      4 ≤ w.length ∧ w ∉ stopWords ∧ ∀ c ∈ w, isLowerWordChar c = true := by
  refine ⟨?_, ?_, ?_⟩
  · exact (List.take_sublist _ _).trans (List.filter_sublist _)
  · simp [extractKeywordsWith, List.length_take]
  · intro w hw
    have hf := List.mem_of_mem_take hw
    rw [List.mem_filter] at hf
    obtain ⟨htok, hcond⟩ := hf
    have hcond' : 3 < w.length ∧ w ∉ stopWords := by simpa using hcond
    have hchars := splitNonWordAux_chars (lower text) false w htok
    refine ⟨hcond'.1, hcond'.2, ?_⟩
    intro c hc
    exact isLowerWordChar_of_word c (hchars c hc).2 (hlower text c (hchars c hc).1)

/-- C25: `extractKeywords` returns the first 15, in scan order, of the tokens of
the lowercased text that are not stop-words and are longer than 3 characters.
Every returned token has at least 4 characters, is not a stop-word, is made of
small letters, digits and underscores only and is unchanged by lowercasing;
there are at most 15 of them.  The tokens are the pieces between the maximal
runs of non-word characters: a text of word characters is one token, and a run
of word characters followed by a maximal run of other characters is the first
token, the rest being split in the same way.  The same holds for every
lowercasing function whose result holds no capital ASCII letter. -/
theorem extractKeywords_spec (text : Str) :
    (extractKeywords text = extractKeywordsWith toLowerCase text ∧
      extractKeywords text =
        ((splitNonWord (toLowerCase text)).filter
          (fun w => decide (w ∉ stopWords ∧ 3 < w.length))).take 15 ∧
      (extractKeywords text).Sublist (splitNonWord (toLowerCase text)) ∧
      (extractKeywords text).length ≤ 15 ∧
      (∀ w ∈ extractKeywords text,
        4 ≤ w.length ∧ w ∉ stopWords ∧ (∀ c ∈ w, isLowerWordChar c = true) ∧
          toLowerCase w = w)) ∧
    ((∀ w : Str, (∀ c ∈ w, isWordChar c = true) → splitNonWord w = [w]) ∧
      (∀ w r rest : Str, (∀ c ∈ w, isWordChar c = true) → r ≠ [] →
        (∀ c ∈ r, isWordChar c = false) →
        (∀ c, rest.head? = some c → isWordChar c = true) →
          splitNonWord (w ++ r ++ rest) = w :: splitNonWord rest) ∧
      (splitNonWord (toLowerCase text)).flatten = (toLowerCase text).filter isWordChar) ∧
    (∀ lower : Str → Str, (∀ s : Str, ∀ c ∈ lower s, isAsciiUpper c = false) →
      (extractKeywordsWith lower text).Sublist (splitNonWord (lower text)) ∧
      (extractKeywordsWith lower text).length ≤ 15 ∧
      ∀ w ∈ extractKeywordsWith lower text,
        4 ≤ w.length ∧ w ∉ stopWords ∧ ∀ c ∈ w, isLowerWordChar c = true) := by
  have hwith : extractKeywords text = extractKeywordsWith toLowerCase text := rfl
  have heq : extractKeywords text =
      ((splitNonWord (toLowerCase text)).filter
        (fun w => decide (w ∉ stopWords ∧ 3 < w.length))).take 15 := by
    unfold extractKeywords
    congr 1
    apply List.filter_congr
    intro w _
    rw [Bool.eq_iff_iff]
    simp [and_comm]
  have hprops := extractKeywordsWith_props toLowerCase toLowerCase_not_upper text
  rw [← hwith] at hprops
  refine ⟨⟨hwith, heq, hprops.1, hprops.2.1, ?_⟩,
    ⟨splitNonWord_word, splitNonWord_run, splitNonWordAux_join _ false⟩,
    fun lower hlower => extractKeywordsWith_props lower hlower text⟩
  intro w hw
  obtain ⟨hlen, hstop, hchars⟩ := hprops.2.2 w hw
  have htok : w ∈ splitNonWord (toLowerCase text) := hprops.1.subset hw
  have hsub := splitNonWordAux_chars (toLowerCase text) false w htok
  exact ⟨hlen, hstop, hchars,
    toLowerCase_eq_self_of_subset w text (fun c hc => (hsub c hc).1)⟩

/-- Witness of C25: the keywords of a short sentence with capitals, a short word
and the stop-words `the`, `of` and `from`. -/
theorem extractKeywords_spec_witness :
    extractKeywords "Hello, the World of wonders! from".data =
      ["hello".data, "world".data, "wonders".data] :=
  (extractKeywords_spec "Hello, the World of wonders! from".data).1.2.1.trans (by decide)

/-! ### The single pass -/

theorem tabStage_eq_filter (tab : Tab) (crushes : List Str) (items : List Item) :
    tabStage tab crushes items =
      items.filter (fun item => decide (tab = Tab.crushes → item.filename ∈ crushes)) := by
  cases tab with
  | all => simp [tabStage_all]
  | crushes =>
    rw [tabStage_crushes]
    apply List.filter_congr
    intro item _
    rw [Bool.eq_iff_iff]
    simp

theorem perfectStage_eq_filter (b : Bool) (items : List Item) :
    perfectStage b items =
      items.filter (fun item => decide (b = true → hasTypo item = false)) := by
  cases b with
  | false => simp [perfectStage_off]
  | true =>
    rw [perfectStage_on]
    apply List.filter_congr
    intro item _
    rw [Bool.eq_iff_iff]
    simp

theorem searchStage_eq_filter (search : Engine) (q : Str) (items : List Item) :
    searchStage search q items =
      items.filter (fun item =>
        decide (q ≠ [] → ∃ r ∈ search q, r.filename = item.filename)) := by
  cases q with
  | nil => simp [searchStage_empty]
  | cons c cs =>
    rw [searchStage_query search _ (List.cons_ne_nil _ _)]
    apply List.filter_congr
    intro item _
    rw [Bool.eq_iff_iff]
    simp

theorem tagStage_eq_filter (active : List Str) (items : List Item) :
    tagStage active items =
      items.filter (fun item =>
        decide (∀ t ∈ active, ∃ tag ∈ item.tags, toLowerCase tag = toLowerCase t)) := by
  cases active with
  | nil => simp [tagStage_nil]
  | cons t ts =>
    rw [tagStage_cons]
    apply List.filter_congr
    intro item _
    rw [Bool.eq_iff_iff, hasAllTags_iff, decide_eq_true_iff]

/-- C26: the visible set computed by the stages in sequence is the single pass
over the catalog that keeps a record exactly when it satisfies the conjunction
of the active predicates (tab, quality, search, persona, hook, style, tag), in
catalog order. -/
theorem visibleItems_eq_singlePass (allData : List Item) (crushes : List Str)
    (search : Engine) (st : FilterState) :
    visibleItems allData crushes search st = singlePass allData crushes search st ∧
    ∀ item, item ∈ visibleItems allData crushes search st ↔
      item ∈ allData ∧ keepsRecord crushes search st item := by
  have heq : visibleItems allData crushes search st = singlePass allData crushes search st := by
    simp only [visibleItems, singlePass, metadataStages, tabStage_eq_filter,
      perfectStage_eq_filter, searchStage_eq_filter, metadataStage_eq_filter,
      tagStage_eq_filter, List.filter_filter]
    apply List.filter_congr
    intro item _
    rw [Bool.eq_iff_iff]
    simp only [Bool.and_eq_true, decide_eq_true_iff, keepsRecord]
    tauto
  refine ⟨heq, ?_⟩
  intro item
  rw [heq, singlePass, List.mem_filter, decide_eq_true_iff]

/-! ### Pill counts against filtering -/

/-- When the records of a catalog that share a lowercased facet value are
exactly those that share its formatted value, the count of a facet entry is the
number of records that the facet filter keeps for its display value. -/
theorem facet_count_agrees_of_consistent (facet : Item → Str) (items : List Item)
    (hcons : ∀ a ∈ items, ∀ b ∈ items,
      (toLowerCase (facet a) = toLowerCase (facet b) ↔
        formatText (facet a) = formatText (facet b)))
    (e : FacetEntry) (he : e ∈ facetIndex facet items) :
    (metadataStage facet [e.display] items).length = e.count := by
  obtain ⟨k, hk, rfl⟩ := List.mem_map.mp he
  have hk' := (mem_uniqueInOrder _ _).mp hk
  obtain ⟨y, hy, hyk⟩ := List.mem_map.mp hk'
  have hsome : (items.find? (fun item => toLowerCase (facet item) == k)).isSome := by
    rw [List.find?_isSome]
    exact ⟨y, hy, by simp [hyk]⟩
  cases hfind : items.find? (fun item => toLowerCase (facet item) == k) with
  | none => simp [hfind] at hsome
  | some first =>
    have hfirst_mem : first ∈ items := List.mem_of_find?_eq_some hfind
    have hfirst_key : toLowerCase (facet first) = k := by
      simpa using List.find?_some hfind
    simp only [facetEntryOf, hfind, metadataStage_eq_filter, List.countP_eq_length_filter]
    congr 1
    apply List.filter_congr
    intro item hitem
    rw [Bool.eq_iff_iff]
    simp only [decide_eq_true_iff, List.mem_singleton, beq_iff_eq]
    constructor
    · intro h
      have h1 := h (List.cons_ne_nil _ _)
      rw [← hfirst_key]
      exact (hcons item hitem first hfirst_mem).mpr h1
    · intro h _
      rw [← hfirst_key] at h
      exact (hcons item hitem first hfirst_mem).mp h

/-- C27: the personas `mom` and `mOM` share the lowercased key, so the persona
pill shows `Mom` with count 2, and selecting `Mom` keeps the one record whose
persona formats to `Mom`. -/
theorem facet_pill_count_case_variant :
    (getUniqueMetadata caseVariantCatalog).personas =
        [{ display := "Mom".data, count := 2 }] ∧
      (visibleItems caseVariantCatalog [] (constEngine [])
        { noFilter with activePersonaFilters := ["Mom".data] }).map Item.filename =
        ["a.png".data] := by
  decide

/-- C28: the tags `Red` and ` red ` share the trimmed lowercased key, so the tag
pill shows `Red` with count 2, and selecting `Red` keeps the one record that has
a tag whose lowercase form is `red`. -/
theorem tag_pill_count_padded_tag :
    getTopTags paddedTagCatalog 12 =
        [{ tag := DisplayVal.tag "Red".data, count := CountVal.num 2 }] ∧
      (visibleItems paddedTagCatalog [] (constEngine [])
        { noFilter with activeTagFilters := ["Red".data] }).map Item.filename =
        ["a.png".data] := by
  decide

/-- C29: with perfect mode off and the tag, persona, hook and style sets empty,
the patched `filterAndRender` leaves the same `currentItems` and the same
`displayedCount` as the original one. -/
theorem patched_extends_original (allData : List Item) (crushes : List Str) (search : Engine)
    (st : FilterState) (hperfect : st.perfectModeActive = false)
    (htags : st.activeTagFilters = []) (hpersona : st.activePersonaFilters = [])
    (hhook : st.activeHookFilters = []) (hstyle : st.activeStyleFilters = []) :
    visibleItems allData crushes search st = originalItems allData crushes search st ∧
    filterAndRender allData crushes search st =
      originalFilterAndRender allData crushes search st ∧
    (filterAndRender allData crushes search st).currentItems =
      (originalFilterAndRender allData crushes search st).currentItems ∧
    (filterAndRender allData crushes search st).displayedCount =
      (originalFilterAndRender allData crushes search st).displayedCount := by
  have hitems : visibleItems allData crushes search st =
      originalItems allData crushes search st := by
    simp [visibleItems, originalItems, metadataStages, hperfect, htags, hpersona, hhook,
      hstyle, perfectStage_off, metadataStage_nil, tagStage_nil]
  have hpage : filterAndRender allData crushes search st =
      originalFilterAndRender allData crushes search st := by
    simp only [filterAndRender, originalFilterAndRender, hitems]
  exact ⟨hitems, hpage, by rw [hpage], by rw [hpage]⟩

/-- Witness of C29: the Favorites tab with the query `ad`. -/
theorem patched_extends_original_witness :
    filterAndRender twoItems ["b.png".data] (constEngine twoItemsSwapped)
        { favoritesOnly with searchValue := "ad".data } =
      originalFilterAndRender twoItems ["b.png".data] (constEngine twoItemsSwapped)
        { favoritesOnly with searchValue := "ad".data } :=
  (patched_extends_original twoItems ["b.png".data] (constEngine twoItemsSwapped)
    { favoritesOnly with searchValue := "ad".data } rfl rfl rfl rfl rfl).2.1

theorem toggle_preserves_nodup (m : CrushManager) (id : Str) (hnd : m.crushes.Nodup) :
    (m.toggle id).1.crushes.Nodup := by
  by_cases h : id ∈ m.crushes
  · rw [toggle_crushes_of_mem m id h]
    exact hnd.erase id
  · rw [toggle_crushes_of_not_mem m id h]
    refine List.nodup_append.mpr ⟨hnd, List.nodup_singleton id, ?_⟩
    intro a ha hb
    simp only [List.mem_singleton] at hb
    exact h (hb ▸ ha)

theorem toggleAll_nodup (ids : List Str) :
    ∀ m : CrushManager, m.crushes.Nodup → (toggleAll m ids).crushes.Nodup := by
  induction ids with
  | nil => intro m h; exact h
  | cons id rest ih =>
    intro m h
    exact ih (m.toggle id).1 (toggle_preserves_nodup m id h)

/-- C30: `toggle` keeps a duplicate-free list duplicate-free; hence every list
reached from the empty store by toggles holds no identifier twice, and its
length is the number of identifiers for which `isCrushed` is true. -/
theorem favorites_stay_duplicate_free (m : CrushManager) (id : Str) (ids : List Str) :
    (m.crushes.Nodup → (m.toggle id).1.crushes.Nodup) ∧
    (toggleAll (CrushManager.mk []) ids).crushes.Nodup ∧
    (toggleAll (CrushManager.mk []) ids).crushes.length =
      (toggleAll (CrushManager.mk []) ids).crushes.toFinset.card ∧
    (∀ x, x ∈ (toggleAll (CrushManager.mk []) ids).crushes.toFinset ↔
      (toggleAll (CrushManager.mk []) ids).isCrushed x = true) := by
  have hnd := toggleAll_nodup ids (CrushManager.mk []) List.nodup_nil
  refine ⟨toggle_preserves_nodup m id, hnd, (List.toFinset_card_of_nodup hnd).symm, ?_⟩
  intro x
  rw [List.mem_toFinset, isCrushed_iff]

/-- Witness of C30: toggling `a` in the duplicate-free store `[a, b]`. -/
theorem favorites_stay_duplicate_free_witness :
    ((CrushManager.mk ["a".data, "b".data]).toggle "a".data).1.crushes.Nodup :=
  (favorites_stay_duplicate_free (CrushManager.mk ["a".data, "b".data]) "a".data []).1
    (by decide)

/-- The result of `getTopTags` has at most `limit` entries and is cut from the
sorted list: a smaller limit gives a prefix of the result for a larger one. -/
theorem getTopTags_truncates (items : List Item) (limit larger : Nat) (h : limit ≤ larger) :
    (getTopTags items limit).length ≤ limit ∧
      getTopTags items limit = (getTopTags items larger).take limit := by
  refine ⟨?_, ?_⟩
  · simp [getTopTags, List.length_take]
  · simp only [getTopTags, ← List.map_take, List.take_take]
    rw [Nat.min_eq_left h]

end Gallery
